import Mathlib

/-!
# Tile stamps: data model, persistence and manager

A shallow embedding of `tilestamp.cpp` and `tilestampmanager.cpp`.

* Heap objects (`Map`, `TileStampData`) live in a `World`; a pointer is the
  index of a heap cell, `new` appends a cell and `delete` empties it.
* A `TileStamp` value is a handle: the address of its shared `TileStampData`.
* `qreal` is embedded as `ℚ` (exact arithmetic), `int` as `Int`.
* Reading through a dangling pointer, or indexing a vector out of range, is
  undefined in the source; the embedding returns `none` there.
-/

namespace Tiled

/-! ## Qt JSON values -/

/-- The seven kinds of `QJsonValue`. Numbers are stored as `double`. -/
inductive QJsonValue where
  | null
  | bool (b : Bool)
  | double (d : ℚ)
  | string (s : String)
  | array (a : List QJsonValue)
  | object (o : List (String × QJsonValue))
  | undefined

/-- A `QJsonObject`: a finite map from keys to values, one entry per key. -/
abbrev QJsonObject := List (String × QJsonValue)

/-- A `QJsonArray`. -/
abbrev QJsonArray := List QJsonValue

/-- Whether the value is `QJsonValue::Undefined`. -/
def QJsonValue.isUndefined : QJsonValue → Bool
  | .undefined => true
  | _ => false

/-- Qt function `QJsonObject::remove(key)`. -/
def QJsonObject.remove (o : QJsonObject) (key : String) : QJsonObject :=
  o.filter (fun kv => !(kv.1 == key))

/-- Qt function `QJsonObject::insert(key, value)`: replaces the value of an
existing key; inserting an undefined value removes the key. -/
def QJsonObject.insert (o : QJsonObject) (key : String) (value : QJsonValue) : QJsonObject :=
  if value.isUndefined then QJsonObject.remove o key
  else QJsonObject.remove o key ++ [(key, value)]

/-- Qt function `QJsonObject::value(key)`: the value, or `Undefined` when the
key is absent. -/
def QJsonObject.value (o : QJsonObject) (key : String) : QJsonValue :=
  match o.find? (fun kv => kv.1 == key) with
  | some kv => kv.2
  | none => .undefined

/-- Qt function `QJsonValue::toString()`: the string, or a null `QString` for
any other kind. -/
def QJsonValue.toString : QJsonValue → String
  | .string s => s
  | _ => ""

/-- Least value of a 32-bit `int`. -/
def INT_MIN : Int := -2147483648

/-- Greatest value of a 32-bit `int`. -/
def INT_MAX : Int := 2147483647

/-- Qt function `QJsonValue::toInt(defaultValue)`: the number when the value
is a double that converts to `int` without loss, the default otherwise. -/
def QJsonValue.toInt (v : QJsonValue) (defaultValue : Int) : Int :=
  match v with
  | .double d =>
    if d.den = 1 ∧ INT_MIN ≤ d.num ∧ d.num ≤ INT_MAX then d.num else defaultValue
  | _ => defaultValue

/-- Qt function `QJsonValue::toDouble(defaultValue)`. -/
def QJsonValue.toDouble (v : QJsonValue) (defaultValue : ℚ) : ℚ :=
  match v with
  | .double d => d
  | _ => defaultValue

/-- Qt function `QJsonValue::toArray()`: the array, or an empty one for any
other kind. -/
def QJsonValue.toArray : QJsonValue → QJsonArray
  | .array a => a
  | _ => []

/-- Qt function `QJsonValue::toObject()`: the object, or an empty one for any
other kind. -/
def QJsonValue.toObject : QJsonValue → QJsonObject
  | .object o => o
  | _ => []

/-! ## Maps, tilesets and the heap -/

/-- Identity of a shared tileset (`SharedTileset`). -/
abbrev Tileset := Nat

/-- Address of a `Map` object. -/
abbrev MapPtr := Nat

/-- Address of a `TileStampData` object; the value of a `TileStamp` handle. -/
abbrev StampPtr := Nat

/-- A directory used to resolve relative paths (`QDir`). -/
abbrev Dir := String

/-- The single tile layer of a stamp map: its size and its cells. -/
structure TileLayer where
  width : Int
  height : Int
  cells : List Nat
deriving DecidableEq, Repr

/-- The content of a `Map` as far as `tilestamp.cpp` uses it: size, the layer
at index 0 and the vector returned by `tilesets()`, the tilesets the map
uses. -/
structure Map where
  width : Int
  height : Int
  layer : TileLayer
  tilesets : List Tileset
deriving DecidableEq, Repr

/-- The type `TileStampVariation`: a map pointer and a probability. -/
structure TileStampVariation where
  map : MapPtr
  probability : ℚ
deriving DecidableEq

/-- The type `TileStampData`: the shared data behind a `TileStamp` handle. -/
structure TileStampData where
  name : String
  variations : List TileStampVariation
  quickStampIndex : Int
deriving DecidableEq

/-- The heap of maps, the heap of stamp data and the reference counts kept by
`TilesetManager::instance()`. -/
structure World where
  maps : List (Option Map)
  stamps : List (Option TileStampData)
  tilesetRefs : Tileset → Int

/-- The world before anything is allocated: no maps, no stamps, all counts 0. -/
def World.empty : World :=
  { maps := [], stamps := [], tilesetRefs := fun _ => 0 }

/-- The map stored at an address, if the address is live. -/
def World.mapAt (w : World) (p : MapPtr) : Option Map :=
  (w.maps[p]?).join

/-- The stamp data stored at an address, if the address is live. -/
def World.stampAt (w : World) (p : StampPtr) : Option TileStampData :=
  (w.stamps[p]?).join

/-- The expression `new Map(m)`: a fresh heap cell holding `m`. -/
def World.newMap (w : World) (m : Map) : World × MapPtr :=
  ({ w with maps := w.maps ++ [some m] }, w.maps.length)

/-- The expression `delete map`. -/
def World.deleteMap (w : World) (p : MapPtr) : World :=
  { w with maps := w.maps.set p none }

/-- Overwrites the map stored at a live address. -/
def World.setMap (w : World) (p : MapPtr) (m : Map) : World :=
  { w with maps := w.maps.set p (some m) }

/-- The expression `new TileStampData`: a fresh heap cell holding `d`. -/
def World.newStampData (w : World) (d : TileStampData) : World × StampPtr :=
  ({ w with stamps := w.stamps ++ [some d] }, w.stamps.length)

/-- Overwrites the stamp data stored at a live address. -/
def World.setStamp (w : World) (p : StampPtr) (d : TileStampData) : World :=
  { w with stamps := w.stamps.set p (some d) }

/-- Every live map of the first world is live with the same content in the
second. -/
def World.mapsKept (w w' : World) : Prop :=
  ∀ p m, w.mapAt p = some m → w'.mapAt p = some m

/-! ## Tileset reference tracking -/

/-- Modelled from the spec: `TilesetManager::addReferences`, of
tilesetmanager.cpp. The tracker keeps a count per tileset and a call
increments the count of every entry of the list it is given. -/
def World.addReferences (w : World) (tilesets : List Tileset) : World :=
  { w with tilesetRefs := fun t => w.tilesetRefs t + (tilesets.count t : Int) }

/-- Modelled from the spec: `TilesetManager::removeReferences`, the inverse of
`addReferences`: a call decrements the count of every entry of the list. -/
def World.removeReferences (w : World) (tilesets : List Tileset) : World :=
  { w with tilesetRefs := fun t => w.tilesetRefs t - (tilesets.count t : Int) }

/-! ## Collaborators of the stamp code -/

/-- The type `FlipDirection` of tilelayer.h. -/
inductive FlipDirection where
  | FlipHorizontally
  | FlipVertically
deriving DecidableEq

/-- The type `RotateDirection` of tilelayer.h. -/
inductive RotateDirection where
  | RotateLeft
  | RotateRight
deriving DecidableEq

/-- The functions `TileLayer::flip` and `TileLayer::rotate`, defined in
tilelayer.cpp: taken as parameters. -/
structure LayerOps where
  flip : FlipDirection → TileLayer → TileLayer
  rotate : RotateDirection → TileLayer → TileLayer

/-- The map codec and the conversions between `QVariant` and `QJsonValue`,
taken as parameters: `MapToVariantConverter::toVariant`,
`QJsonValue::fromVariant`, `QJsonValue::toVariant` and
`VariantToMapConverter::toMap` (`none` is the null pointer it returns on
failure; on success the content of the map it allocates). -/
structure MapCodec (QVariant : Type) where
  toVariant : Map → Dir → QVariant
  fromVariant : QVariant → QJsonValue
  jsonToVariant : QJsonValue → QVariant
  toMap : QVariant → Dir → Option Map

/-! ## tilestamp.cpp -/

namespace TileStamp

/-- The constructor `TileStamp::TileStamp()`: `d(new TileStampData)`, whose
constructor sets `quickStampIndex(-1)`. -/
def create (w : World) : World × StampPtr :=
  w.newStampData { name := "", variations := [], quickStampIndex := -1 }

/-- The loop of `TileStampData::TileStampData(const TileStampData &)`: every
variation gets `new Map(*variation.map)` and the tilesets of the copy are
referenced. -/
def copyVariations (w : World) : List TileStampVariation → Option (World × List TileStampVariation)
  | [] => some (w, [])
  | variation :: rest => do
    let m ← w.mapAt variation.map
    let (w1, p) := w.newMap m
    let w2 := w1.addReferences m.tilesets
    let (w3, rest') ← copyVariations w2 rest
    pure (w3, { variation with map := p } :: rest')

/-- The expression `new TileStampData(*other)`: the copy constructor of
`TileStampData`; the copy has the name and the (deep-copied) variations of
`other` and `quickStampIndex(-1)`. -/
def copyData (w : World) (other : StampPtr) : Option (World × StampPtr) := do
  let d ← w.stampAt other
  let (w1, variations) ← copyVariations w d.variations
  pure (w1.newStampData
    { name := d.name, variations := variations, quickStampIndex := -1 })

/-- The loop of `TileStampData::~TileStampData()`. -/
def destroyVariations (w : World) : List TileStampVariation → Option World
  | [] => some w
  | variation :: rest => do
    let m ← w.mapAt variation.map
    destroyVariations ((w.removeReferences m.tilesets).deleteMap variation.map) rest

/-- The non-const access `d->` of a member function. The declaration of `d`
is in tilestamp.h; `detaches` says whether this access clones the data, which
happens when `d` is a `QSharedDataPointer` and another handle shares the data,
and never when `d` is a `QExplicitlySharedDataPointer` or the handle is the
only one. The result is the world and the data the handle then points to. -/
def writable (detaches : Bool) (w : World) (stamp : StampPtr) : Option (World × StampPtr) :=
  if detaches then copyData w stamp
  else (w.stampAt stamp).map (fun _ => (w, stamp))

/-- The function `TileStamp::name()`. -/
def name (w : World) (stamp : StampPtr) : Option String :=
  (w.stampAt stamp).map (fun d => d.name)

/-- The function `TileStamp::setName(name)`. -/
def setName (detaches : Bool) (w : World) (stamp : StampPtr) (name : String) :
    Option (World × StampPtr) := do
  let (w1, s) ← writable detaches w stamp
  let d ← w1.stampAt s
  pure (w1.setStamp s { d with name := name }, s)

/-- The function `TileStamp::probability(index)`. -/
def probability (w : World) (stamp : StampPtr) (index : Nat) : Option ℚ := do
  let d ← w.stampAt stamp
  let variation ← d.variations[index]?
  pure variation.probability

/-- The function `TileStamp::setProbability(index, probability)`. -/
def setProbability (detaches : Bool) (w : World) (stamp : StampPtr) (index : Nat)
    (probability : ℚ) : Option (World × StampPtr) := do
  let (w1, s) ← writable detaches w stamp
  let d ← w1.stampAt s
  let variation ← d.variations[index]?
  pure (w1.setStamp s
    { d with
      variations := d.variations.set index { variation with probability := probability } }, s)

/-- The function `TileStamp::variations()`. -/
def variations (w : World) (stamp : StampPtr) : Option (List TileStampVariation) :=
  (w.stampAt stamp).map (fun d => d.variations)

/-- The function `TileStamp::addVariation(map, probability)`. -/
def addVariation (detaches : Bool) (w : World) (stamp : StampPtr) (map : MapPtr)
    (probability : ℚ) : Option (World × StampPtr) := do
  let m ← w.mapAt map
  let w1 := w.addReferences m.tilesets
  let (w2, s) ← writable detaches w1 stamp
  let d ← w2.stampAt s
  pure (w2.setStamp s { d with variations := d.variations ++ [⟨map, probability⟩] }, s)

/-- The function `TileStamp::isEmpty()`. -/
def isEmpty (w : World) (stamp : StampPtr) : Option Bool :=
  (w.stampAt stamp).map (fun d => d.variations.isEmpty)

/-- The function `TileStamp::quickStampIndex()`. -/
def quickStampIndex (w : World) (stamp : StampPtr) : Option Int :=
  (w.stampAt stamp).map (fun d => d.quickStampIndex)

/-- The function `TileStamp::setQuickStampIndex(quickStampIndex)`. -/
def setQuickStampIndex (detaches : Bool) (w : World) (stamp : StampPtr)
    (quickStampIndex : Int) : Option (World × StampPtr) := do
  let (w1, s) ← writable detaches w stamp
  let d ← w1.stampAt s
  pure (w1.setStamp s { d with quickStampIndex := quickStampIndex }, s)

/-- What the body of the loop of `TileStamp::flipped` does to a map: the layer
at index 0 is flipped. -/
def flipMap (ops : LayerOps) (direction : FlipDirection) (m : Map) : Map :=
  { m with layer := ops.flip direction m.layer }

/-- What the body of the loop of `TileStamp::rotated` does to a map: the layer
at index 0 is rotated and the map takes the new width and height of the
layer. -/
def rotateMap (ops : LayerOps) (direction : RotateDirection) (m : Map) : Map :=
  let layer := ops.rotate direction m.layer
  { m with layer := layer, width := layer.width, height := layer.height }

/-- A loop over the variations of a stamp that alters every variation map in
place, as the loops of `flipped` and `rotated` do. -/
def alterMaps (body : Map → Map) (w : World) : List TileStampVariation → Option World
  | [] => some w
  | variation :: rest => do
    let m ← w.mapAt variation.map
    alterMaps body (w.setMap variation.map (body m)) rest

/-- The function `TileStamp::flipped(direction)`. The handle `flipped(*this)`
shares the data with `*this`, so `flipped.d.detach()` finds a reference count
above 1 and clones the data. -/
def flipped (ops : LayerOps) (w : World) (stamp : StampPtr) (direction : FlipDirection) :
    Option (World × StampPtr) := do
  let (w1, flipped) ← copyData w stamp
  let d ← w1.stampAt flipped
  let w2 ← alterMaps (flipMap ops direction) w1 d.variations
  pure (w2, flipped)

/-- The function `TileStamp::rotated(direction)`; the detach clones as in
`flipped`. -/
def rotated (ops : LayerOps) (w : World) (stamp : StampPtr) (direction : RotateDirection) :
    Option (World × StampPtr) := do
  let (w1, rotated) ← copyData w stamp
  let d ← w1.stampAt rotated
  let w2 ← alterMaps (rotateMap ops direction) w1 d.variations
  pure (w2, rotated)

/-- The loop of `TileStamp::toJson`: one object per variation. -/
def variationsToJson {QVariant : Type} (c : MapCodec QVariant) (w : World) (dir : Dir) :
    List TileStampVariation → Option QJsonArray
  | [] => some []
  | variation :: rest => do
    let m ← w.mapAt variation.map
    let mapJson := c.fromVariant (c.toVariant m dir)
    let variationJson := QJsonObject.insert [] "probability" (.double variation.probability)
    let variationJson := QJsonObject.insert variationJson "map" mapJson
    let variations ← variationsToJson c w dir rest
    pure (QJsonValue.object variationJson :: variations)

/-- The function `TileStamp::toJson(dir)`. -/
def toJson {QVariant : Type} (c : MapCodec QVariant) (w : World) (stamp : StampPtr)
    (dir : Dir) : Option QJsonObject := do
  let d ← w.stampAt stamp
  let json := QJsonObject.insert [] "name" (.string d.name)
  let json :=
    if d.quickStampIndex ≠ -1 then
      QJsonObject.insert json "quickStampIndex" (.double d.quickStampIndex)
    else json
  let variations ← variationsToJson c w dir d.variations
  pure (QJsonObject.insert json "variations" (.array variations))

/-- The loop of `TileStamp::fromJson`. The stamp is local to `fromJson` and
has a single handle, so `addVariation` does not detach. -/
def loadVariations {QVariant : Type} (c : MapCodec QVariant) (mapDir : Dir) (stamp : StampPtr)
    (w : World) : QJsonArray → Option World
  | [] => some w
  | value :: rest =>
    let variationJson := value.toObject
    let mapVariant := c.jsonToVariant (QJsonObject.value variationJson "map")
    match c.toMap mapVariant mapDir with
    | none => loadVariations c mapDir stamp w rest
    | some m => do
      let (w1, map) := w.newMap m
      let probability := (QJsonObject.value variationJson "probability").toDouble 1
      let (w2, _) ← addVariation false w1 stamp map probability
      loadVariations c mapDir stamp w2 rest

/-- The function `TileStamp::fromJson(json, mapDir)`. -/
def fromJson {QVariant : Type} (c : MapCodec QVariant) (w : World) (json : QJsonObject)
    (mapDir : Dir) : Option (World × StampPtr) := do
  let (w0, stamp) := create w
  let (w1, _) ← setName false w0 stamp (QJsonObject.value json "name").toString
  let (w2, _) ← setQuickStampIndex false w1 stamp
    ((QJsonObject.value json "quickStampIndex").toInt (-1))
  let w3 ← loadVariations c mapDir stamp w2 (QJsonObject.value json "variations").toArray
  pure (w3, stamp)

/-! ### Random variation -/

/-- Qt function `QMap<qreal, const TileStampVariation *>::insert(key, value)`:
the value of an existing key is replaced. A pointer to an element of
`d->variations` is its index in the vector. -/
def thresholdsInsert (m : List (ℚ × Nat)) (key : ℚ) (value : Nat) : List (ℚ × Nat) :=
  match m with
  | [] => [(key, value)]
  | (k, v) :: rest =>
    if key = k then (key, value) :: rest
    else if key < k then (key, value) :: (k, v) :: rest
    else (k, v) :: thresholdsInsert rest key value

/-- Qt function `QMap::lowerBound(key)`: the first item, in key order, whose
key is not less than `key`; `none` is `end()`. -/
def lowerBound (m : List (ℚ × Nat)) (key : ℚ) : Option (ℚ × Nat) :=
  m.find? (fun kv => decide (key ≤ kv.1))

/-- The first loop of `randomVariation`, from the variation at position
`index` on, with the running `sum` and the thresholds collected so far. -/
def probabilityThresholds :
    List TileStampVariation → Nat → ℚ → List (ℚ × Nat) → List (ℚ × Nat) × ℚ
  | [], _, sum, thresholds => (thresholds, sum)
  | variation :: rest, index, sum, thresholds =>
    probabilityThresholds rest (index + 1) (sum + variation.probability)
      (thresholdsInsert thresholds (sum + variation.probability) index)

/-- The function `TileStamp::randomVariation()` from the draw on: `random` is
the value of `((qreal)rand() / RAND_MAX) * sum`. `none` is the null
pointer. -/
def randomVariationAt (variations : List TileStampVariation) (random : ℚ) : Option MapPtr :=
  if variations.isEmpty then none
  else
    match lowerBound (probabilityThresholds variations 0 0 []).1 random with
    | some it => (variations[it.2]?).map (fun variation => variation.map)
    | none => variations.getLast?.map (fun variation => variation.map)

/-- The function `TileStamp::randomVariation()` on the variations of a stamp,
for the value `rand()` returned. -/
def randomVariation (variations : List TileStampVariation) (rand RAND_MAX : Nat) :
    Option MapPtr :=
  randomVariationAt variations
    (((rand : ℚ) / (RAND_MAX : ℚ)) * (probabilityThresholds variations 0 0 []).2)

/-- The draw of `randomVariation`, the value of the expression
`((qreal)rand() / RAND_MAX) * sum` in exact arithmetic, for the value `rand()`
returned. -/
def randomDraw (variations : List TileStampVariation) (rand RAND_MAX : Nat) : ℚ :=
  ((rand : ℚ) / (RAND_MAX : ℚ)) * (probabilityThresholds variations 0 0 []).2

/-- The sum of the probabilities of the variations at positions 0 to `i`. -/
def cumulative (variations : List TileStampVariation) (i : Nat) : ℚ :=
  ((variations.take (i + 1)).map (fun v => v.probability)).sum

/-- The thresholds of a list of variations with positive probabilities, in
order: the running sums, each with the position of its variation. -/
def runningSums (sum : ℚ) (index : Nat) : List TileStampVariation → List (ℚ × Nat)
  | [] => []
  | variation :: rest =>
    (sum + variation.probability, index)
      :: runningSums (sum + variation.probability) (index + 1) rest

/-! ### What a stamp holds -/

/-- The observable content of a stamp: its name, its quick stamp index and,
per variation in order, the probability and the content of the map. -/
structure Content where
  name : String
  quickStampIndex : Int
  variations : List (ℚ × Map)
deriving DecidableEq

/-- Probability and map content of every variation of a list, in order; `none`
when a map pointer is not live. -/
def variationContents (w : World) : List TileStampVariation → Option (List (ℚ × Map))
  | [] => some []
  | variation :: rest => do
    let m ← w.mapAt variation.map
    let contents ← variationContents w rest
    pure ((variation.probability, m) :: contents)

/-- The content of a live stamp; `none` when the stamp or one of its maps is
not live. -/
def content (w : World) (stamp : StampPtr) : Option Content := do
  let d ← w.stampAt stamp
  let contents ← variationContents w d.variations
  pure { name := d.name, quickStampIndex := d.quickStampIndex, variations := contents }

/-- The map of an entry of the "variations" array as the codec decodes it. -/
def entryMap {QVariant : Type} (c : MapCodec QVariant) (mapDir : Dir) (entry : QJsonValue) :
    Option Map :=
  c.toMap (c.jsonToVariant (QJsonObject.value entry.toObject "map")) mapDir

/-- The "probability" field of an entry of the "variations" array: its value
when it is a number, 1 when it is missing or of another kind. -/
def entryProbability (entry : QJsonValue) : ℚ :=
  match QJsonObject.value entry.toObject "probability" with
  | .double d => d
  | _ => 1

/-- The entries of an array whose map decodes, in order, each with its
probability and the decoded map. -/
def decodedEntries {QVariant : Type} (c : MapCodec QVariant) (mapDir : Dir)
    (entries : QJsonArray) : List (ℚ × Map) :=
  entries.filterMap (fun entry =>
    (entryMap c mapDir entry).map (fun m => (entryProbability entry, m)))

/-- The JSON object of one variation: its probability and its encoded map. -/
def variationJson {QVariant : Type} (c : MapCodec QVariant) (dir : Dir) (pm : ℚ × Map) :
    QJsonValue :=
  QJsonValue.object
    (QJsonObject.insert (QJsonObject.insert [] "probability" (.double pm.1)) "map"
      (c.fromVariant (c.toVariant pm.2 dir)))

/-- The JSON object of a stamp content: "name", "quickStampIndex" unless it is
-1, and "variations". -/
def contentJson {QVariant : Type} (c : MapCodec QVariant) (dir : Dir) (v : Content) :
    QJsonObject :=
  QJsonObject.insert
    (if v.quickStampIndex ≠ -1 then
      QJsonObject.insert (QJsonObject.insert [] "name" (.string v.name)) "quickStampIndex"
        (.double v.quickStampIndex)
    else QJsonObject.insert [] "name" (.string v.name))
    "variations" (.array (v.variations.map (variationJson c dir)))

/-- Variations stored at consecutive addresses from `base` on, with the given
probabilities: the shape of the variations of a freshly copied stamp. -/
def variationsAt (base : MapPtr) : List (ℚ × Map) → List TileStampVariation
  | [] => []
  | pm :: rest => ⟨base, pm.1⟩ :: variationsAt (base + 1) rest

/-- How often a tileset is listed by the maps of a list of contents. -/
def usesIn (l : List (ℚ × Map)) (t : Tileset) : Int :=
  (l.map (fun pm => (pm.2.tilesets.count t : Int))).sum

/-- The map cells holding the maps of a list of contents. -/
def cellsOf (l : List (ℚ × Map)) : List (Option Map) :=
  l.map (fun pm => some pm.2)

end TileStamp

/-! ## Sequences of calls on stamps -/

/-- The variations of the live stamp data in a list of heap cells. -/
def variationsIn (stamps : List (Option TileStampData)) : List TileStampVariation :=
  stamps.flatMap (fun cell => match cell with
    | some d => d.variations
    | none => [])

/-- The variations that are currently live, across all stamps. -/
def World.liveVariations (w : World) : List TileStampVariation :=
  variationsIn w.stamps

/-- The list `tilesets()` of the map at an address of a map heap; empty when
the address is not live. -/
def tilesetsIn (maps : List (Option Map)) (p : MapPtr) : List Tileset :=
  match (maps[p]?).join with
  | some m => m.tilesets
  | none => []

/-- The heap discipline of stamps: no two live variations own the same map,
every live variation owns a live map, which has the property `P`, and the
count kept for every tileset is the number of its listings by the maps
`variations` owns. -/
def Tracked (P : Map → Prop) (maps : List (Option Map))
    (variations : List TileStampVariation) (refs : Tileset → Int) : Prop :=
  (variations.map (fun v => v.map)).Nodup ∧
  (∀ v ∈ variations, ∃ m, (maps[v.map]?).join = some m ∧ P m) ∧
  ∀ t, refs t = ((variations.map (fun v => (tilesetsIn maps v.map).count t)).sum : Nat)

/-- A `QMap<QString, T>`: entries kept in ascending key order, one per key.
Keys are compared character by character. -/
abbrev QMap (T : Type) := List (String × T)

/-- Qt function `QMap::contains(key)`. -/
def QMap.contains {T : Type} (m : QMap T) (key : String) : Bool :=
  m.any (fun kv => kv.1 == key)

/-- Qt function `QMap::value(key)`, as an option. -/
def QMap.lookup {T : Type} (m : QMap T) (key : String) : Option T :=
  (m.find? (fun kv => kv.1 == key)).map (fun kv => kv.2)

/-- Qt function `QMap::insert(key, value)`: the value of an existing key is
replaced, a new key is put at its place in the order. -/
def QMap.insert {T : Type} (m : QMap T) (key : String) (value : T) : QMap T :=
  match m with
  | [] => [(key, value)]
  | (k, v) :: rest =>
    if key = k then (key, value) :: rest
    else if key.toList < k.toList then (key, value) :: (k, v) :: rest
    else (k, v) :: QMap.insert rest key value

/-- Qt function `QMap::remove(key)`. -/
def QMap.remove {T : Type} (m : QMap T) (key : String) : QMap T :=
  m.filter (fun kv => !(kv.1 == key))

/-- Qt function `QMap::key(value)`: the first key, in key order, bound to the
value, or a default-constructed key when there is none. -/
def QMap.key {T : Type} [DecidableEq T] (m : QMap T) (value : T) : String :=
  match m.find? (fun kv => kv.2 == value) with
  | some kv => kv.1
  | none => ""

/-- The content of a file. -/
abbrev Bytes := List Nat

/-- A `QJsonDocument`: `none` is the null document, otherwise the array or
object it contains. -/
abbrev QJsonDocument := Option QJsonValue

/-- Qt function `QJsonDocument::object()`: the object of the document, an empty object
when the document is null or contains an array. -/
def QJsonDocument.object (document : QJsonDocument) : QJsonObject :=
  match document with
  | some (.object o) => o
  | _ => []

/-- A file of the stamps directory as the directory iterator reports it: its
name and its bytes, or `none` when opening it for reading fails. -/
structure StampFile where
  fileName : String
  data : Option Bytes
deriving DecidableEq

/-- The stamps directory on disk: whether it exists, and its files in
iteration order. -/
structure Disk where
  dirExists : Bool
  files : List StampFile
deriving DecidableEq

/-- What the stamp manager takes from outside: the map codec, the kind of
shared pointer `TileStamp::d` is (declared in tilestamp.h), whether a file
name passes the name filter "*.stamp" of the directory iterator, the JSON
document readers and writer, the stamps directory of the preferences, and
whether `mkpath` and `QSaveFile::commit` succeed. -/
structure Env (QVariant : Type) where
  codec : MapCodec QVariant
  implicitSharing : Bool
  nameFilter : String → Bool
  fromBinaryData : Bytes → QJsonDocument
  fromJson : Bytes → QJsonDocument × Bool
  toJson : QJsonObject → Bytes
  stampsDirectory : Dir
  mkpath : Bool
  commit : Bool

/-- The state of the stamp manager together with the heap, the stamp model it
observes and the disk. Handles held by callers are not tracked, so stamp data
whose last handle goes away stays in the heap. -/
structure TileStampManager where
  world : World
  mQuickStamps : List StampPtr
  mStampsByName : QMap StampPtr
  mLoadingStamps : Bool
  mTileStampModel : List StampPtr
  disk : Disk

namespace TileStampManager

/-- The file name part of `stampFilePath(name)`: the name with the extension
".stamp", inside the stamps directory. -/
def stampFilePath (name : String) : String :=
  name ++ ".stamp"

/-- The steps `QSaveFile` write and commit: the file of that name is replaced or added. -/
def writeFile (disk : Disk) (fileName : String) (data : Bytes) : Disk :=
  { disk with
    files := disk.files.filter (fun f => !(f.fileName == fileName))
      ++ [{ fileName := fileName, data := some data }] }

/-- Qt function `QFile::remove(fileName)`. -/
def removeFile (disk : Disk) (fileName : String) : Disk :=
  { disk with files := disk.files.filter (fun f => !(f.fileName == fileName)) }

/-- The function `TileStampManager::saveStamp(stamp)`. -/
def saveStamp {QVariant : Type} (env : Env QVariant) (st : TileStampManager)
    (stamp : StampPtr) : Option TileStampManager :=
  if !st.disk.dirExists && !env.mkpath then
    some st
  else do
    let disk := { st.disk with dirExists := true }
    let name ← TileStamp.name st.world stamp
    let filePath := stampFilePath name
    let stampJson ← TileStamp.toJson env.codec st.world stamp env.stampsDirectory
    if env.commit then
      pure { st with disk := writeFile disk filePath (env.toJson stampJson) }
    else
      pure { st with disk := disk }

/-- The name `QString("Stamp %1").arg(index)`. -/
def stampNameTemplate (index : Nat) : String :=
  "Stamp " ++ toString index

/-- The do-while loop of `stampAdded`: counts `index` up from the given value
until the name is not taken; `fuel` bounds the number of rounds. -/
def pickName (contains : String → Bool) : Nat → Nat → Option String
  | 0, _ => none
  | fuel + 1, index =>
    let index := index + 1
    let name := stampNameTemplate index
    if contains name then pickName contains fuel index else some name

/-- The function `TileStampManager::stampAdded(stamp)`. `detaches` says whether `setName`
clones the data of the handle it is called on; the result carries the data the
handle points to afterwards. -/
def stampAdded {QVariant : Type} (env : Env QVariant) (fuel : Nat) (detaches : Bool)
    (st : TileStampManager) (stamp : StampPtr) : Option (TileStampManager × StampPtr) := do
  let oldName ← TileStamp.name st.world stamp
  let (st1, stamp1) ←
    if oldName.isEmpty || st.mStampsByName.contains oldName then do
      let name ← pickName st.mStampsByName.contains fuel 0
      let (w, s) ← TileStamp.setName detaches st.world stamp name
      pure ({ st with world := w }, s)
    else
      pure (st, stamp)
  let name ← TileStamp.name st1.world stamp1
  let st2 := { st1 with mStampsByName := st1.mStampsByName.insert name stamp1 }
  if !st2.mLoadingStamps then do
    let st3 ← saveStamp env st2 stamp1
    pure (st3, stamp1)
  else
    pure (st2, stamp1)

/-- The function `TileStampManager::deleteStamp(stamp)`. -/
def deleteStamp (st : TileStampManager) (stamp : StampPtr) : Option TileStampManager := do
  let name ← TileStamp.name st.world stamp
  pure { st with
    mStampsByName := st.mStampsByName.remove name
    disk := removeFile st.disk (stampFilePath name) }

/-- Modelled from the spec: `TileStampModel::addStamp` is defined in
tilestampmodel.cpp. It registers the stamp in the observed collection and
fires the add callback, which the constructor of the manager connects to
`stampAdded`; the model holds a copy of the handle, so the data is shared
when the callback renames the stamp. -/
def addStamp {QVariant : Type} (env : Env QVariant) (fuel : Nat) (st : TileStampManager)
    (stamp : StampPtr) : Option (TileStampManager × StampPtr) :=
  stampAdded env fuel env.implicitSharing
    { st with mTileStampModel := st.mTileStampModel ++ [stamp] } stamp

/-- Modelled from the spec: `TileStampModel::removeStamp` is defined in
tilestampmodel.cpp. It removes the stamp from the observed collection entirely
and fires the remove callback, which the constructor of the manager connects
to `deleteStamp`. -/
def removeStamp (st : TileStampManager) (stamp : StampPtr) : Option TileStampManager :=
  deleteStamp { st with mTileStampModel := st.mTileStampModel.filter (fun s => !(s == stamp)) }
    stamp

/-- The function `TileStampManager::eraseQuickStamp(index)`. -/
def eraseQuickStamp (st : TileStampManager) (index : Nat) : Option TileStampManager := do
  let stamp ← st.mQuickStamps[index]?
  let empty ← TileStamp.isEmpty st.world stamp
  if !empty then
    let (w, fresh) := TileStamp.create st.world
    let st1 := { st with world := w, mQuickStamps := st.mQuickStamps.set index fresh }
    if !st1.mQuickStamps.contains stamp then
      removeStamp st1 stamp
    else
      pure st1
  else
    pure st

/-- The function `TileStampManager::setQuickStamp(index, stamp)`. The
parameter is a copy of the handle of the caller, so `setQuickStampIndex`
clones the data when the pointer is implicitly shared. -/
def setQuickStamp {QVariant : Type} (env : Env QVariant) (fuel : Nat) (st : TileStampManager)
    (index : Nat) (stamp : StampPtr) : Option TileStampManager := do
  let (w, stamp1) ← TileStamp.setQuickStampIndex env.implicitSharing st.world stamp index
  let st1 ← eraseQuickStamp { st with world := w } index
  let (st2, stamp2) ← addStamp env fuel st1 stamp1
  if index < st2.mQuickStamps.length then
    pure { st2 with mQuickStamps := st2.mQuickStamps.set index stamp2 }
  else
    none

/-- Qt function `QFile::rename(oldName, newName)`: the file is renamed unless
there is no file `oldName` or a file `newName` exists already, which is never
overwritten. -/
def renameFile (disk : Disk) (oldName newName : String) : Disk :=
  if disk.files.any (fun f => f.fileName == oldName)
      && !disk.files.any (fun f => f.fileName == newName) then
    { disk with
      files := disk.files.map (fun f =>
        if f.fileName == oldName then { f with fileName := newName } else f) }
  else
    disk

/-- The function `TileStampManager::stampChanged(stamp)`. -/
def stampChanged {QVariant : Type} (env : Env QVariant) (st : TileStampManager)
    (stamp : StampPtr) : Option TileStampManager := do
  let existingName := st.mStampsByName.key stamp
  let name ← TileStamp.name st.world stamp
  let st1 :=
    if existingName != name then
      { st with
        mStampsByName := (st.mStampsByName.remove existingName).insert name stamp
        disk := renameFile st.disk (stampFilePath existingName) (stampFilePath name) }
    else
      st
  saveStamp env st1 stamp

end TileStampManager

/-- The value of a decimal digit character. -/
def digitValue (c : Char) : Nat :=
  c.toNat - 48

/-- The number a list of decimal digits writes. -/
def decimalValue (digits : List Char) : Nat :=
  digits.foldl (fun a c => 10 * a + digitValue c) 0

/-! ## Concrete values for the instances below -/

namespace Sample

/-- A codec that writes a map as a JSON array of its fields. -/
def encodeMap (m : Map) : QJsonValue :=
  .array [.double m.width, .double m.height, .double m.layer.width, .double m.layer.height,
    .array (m.layer.cells.map (fun (n : Nat) => QJsonValue.double (n : ℚ))),
    .array (m.tilesets.map (fun (n : Nat) => QJsonValue.double (n : ℚ)))]

/-- Reads a list of naturals written by `encodeMap`. -/
def decodeNats (a : List QJsonValue) : List Nat :=
  a.map (fun v => match v with
    | .double d => d.num.toNat
    | _ => 0)

/-- Reads a map written by `encodeMap`; fails on anything else. -/
def decodeMap : QJsonValue → Option Map
  | .array [.double a, .double b, .double c, .double d, .array cells, .array tilesets] =>
    some { width := a.num, height := b.num,
           layer := { width := c.num, height := d.num, cells := decodeNats cells },
           tilesets := decodeNats tilesets }
  | _ => none

/-- The codec made of `encodeMap` and `decodeMap`, with `QVariant` realised by
JSON values. -/
def codec : MapCodec QJsonValue :=
  { toVariant := fun m _ => encodeMap m
    fromVariant := fun v => v
    jsonToVariant := fun v => v
    toMap := fun v _ => decodeMap v }

/-- A 2 by 1 map using tileset 7. -/
def grass : Map :=
  { width := 2, height := 1, layer := { width := 2, height := 1, cells := [5, 6] },
    tilesets := [7] }

/-- A world with one stamp, bound to quick slot 3, holding `grass` with
probability 2. -/
def world : World :=
  { maps := [some grass]
    stamps := [some { name := "Grass", variations := [⟨0, 2⟩], quickStampIndex := 3 }]
    tilesetRefs := fun t => if t = 7 then 1 else 0 }

/-- A 1 by 1 map whose list of tilesets names tileset 7 twice. -/
def doubled : Map :=
  { width := 1, height := 1, layer := { width := 1, height := 1, cells := [5] },
    tilesets := [7, 7] }

/-- Three variations with probabilities 1, 1 and 2, at map addresses 10, 11
and 12. -/
def weighted : List TileStampVariation :=
  [⟨10, 1⟩, ⟨11, 1⟩, ⟨12, 2⟩]

/-- A world with two live stamps, both without a name, each with one
variation. -/
def unnamed : World :=
  { maps := [some grass, some doubled]
    stamps := [some { name := "", variations := [⟨0, 1⟩], quickStampIndex := -1 },
               some { name := "", variations := [⟨1, 1⟩], quickStampIndex := -1 }]
    tilesetRefs := fun t => if t = 7 then 3 else 0 }

/-- A document reader for the instances: the bytes `[1]` are the text of a
stamp object with one variation, `[2]` the text of an object without
variations; everything else fails to parse, and nothing is valid binary
data. -/
def parseText (data : Bytes) : QJsonDocument × Bool :=
  if data = [1] then
    (some (.object [("name", .string "Grass"), ("quickStampIndex", .double 42),
      ("variations", .array [.object [("probability", .double 2), ("map", encodeMap grass)]])]),
      false)
  else if data = [2] then (some (.object [("name", .string "Empty")]), false)
  else (none, true)

/-- The environment of the instances: explicit sharing, a name filter that
takes the names ending in ".stamp", a directory that exists and can be
written. -/
def env : Env QJsonValue :=
  { codec := codec
    implicitSharing := false
    nameFilter := fun fileName => ".stamp".toList.isSuffixOf fileName.toList
    fromBinaryData := fun _ => none
    fromJson := parseText
    toJson := fun _ => [0]
    stampsDirectory := "stamps"
    mkpath := true
    commit := true }

/-- A manager over the world `unnamed`: nine quick slots that hold the second
stamp in slots 2 and 5 and the first stamp elsewhere, an index with the key
"Stamp 1", both stamps in the model, and a stamps directory with a
well-formed file and a corrupt one. -/
def manager : TileStampManager :=
  { world := unnamed
    mQuickStamps := [0, 0, 1, 0, 0, 1, 0, 0, 0]
    mStampsByName := [("Stamp 1", 0)]
    mLoadingStamps := false
    mTileStampModel := [0, 1]
    disk := { dirExists := true
              files := [{ fileName := "a.stamp", data := some [1] },
                        { fileName := "b.stamp", data := some [9] }] } }

/-- Three variations with probabilities 1, 0 and 1, at map addresses 10, 11
and 12. -/
def zeroed : List TileStampVariation :=
  [⟨10, 1⟩, ⟨11, 0⟩, ⟨12, 1⟩]

/-- A world with a stamp "Grass" and an empty stamp for the free quick
slots. -/
def meadow : World :=
  { maps := [some grass]
    stamps := [some { name := "Grass", variations := [⟨0, 2⟩], quickStampIndex := -1 },
               some { name := "", variations := [], quickStampIndex := -1 }]
    tilesetRefs := fun t => if t = 7 then 1 else 0 }

/-- A manager over the world `meadow` whose stamp "Grass" is indexed under the
name "Meadow" it had before, with its file "Meadow.stamp". -/
def edited : TileStampManager :=
  { world := meadow
    mQuickStamps := [1, 1, 1, 1, 1, 1, 1, 1, 1]
    mStampsByName := [("Meadow", 0)]
    mLoadingStamps := false
    mTileStampModel := [0]
    disk := { dirExists := true
              files := [{ fileName := "Meadow.stamp", data := some [3] }] } }

/-- A world with two live stamps and an empty one: the first was "A" and has
just been renamed to "B", the name of the second. -/
def clash : World :=
  { maps := [some grass, some grass]
    stamps := [some { name := "B", variations := [⟨0, 1⟩], quickStampIndex := -1 },
               some { name := "B", variations := [⟨1, 1⟩], quickStampIndex := -1 },
               some { name := "", variations := [], quickStampIndex := -1 }]
    tilesetRefs := fun t => if t = 7 then 2 else 0 }

/-- A manager over the world `clash`: the index still has the first stamp
under "A" and the second under "B", and each has its file. -/
def renamed : TileStampManager :=
  { world := clash
    mQuickStamps := [2, 2, 2, 2, 2, 2, 2, 2, 2]
    mStampsByName := [("A", 0), ("B", 1)]
    mLoadingStamps := false
    mTileStampModel := [0, 1]
    disk := { dirExists := true
              files := [{ fileName := "A.stamp", data := some [1] },
                        { fileName := "B.stamp", data := some [2] }] } }

/-- Layer operations for the instances: a flip reverses the cells, a rotation
swaps width and height. -/
def layerOps : LayerOps :=
  { flip := fun _ l => { l with cells := l.cells.reverse }
    rotate := fun _ l => { width := l.height, height := l.width, cells := l.cells.reverse } }

end Sample

/-! # Theorems -/

/-! ## JSON objects -/

theorem QJsonObject.find_remove_self (o : QJsonObject) (key : String) :
    (QJsonObject.remove o key).find? (fun kv => kv.1 == key) = none := by
  induction o with
  | nil => rfl
  | cons kv rest ih =>
    unfold QJsonObject.remove at ih ⊢
    by_cases h : kv.1 = key
    · simp [List.filter_cons, h, ih]
    · simp [List.filter_cons, h, List.find?_cons, ih]

theorem QJsonObject.find_remove_other (o : QJsonObject) (key other : String) (h : other ≠ key) :
    (QJsonObject.remove o key).find? (fun kv => kv.1 == other)
      = o.find? (fun kv => kv.1 == other) := by
  induction o with
  | nil => rfl
  | cons kv rest ih =>
    unfold QJsonObject.remove at ih ⊢
    by_cases hk : kv.1 = key
    · have hne : ¬ kv.1 = other := fun e => h (e ▸ hk)
      have hb : (kv.1 == other) = false := by simpa using hne
      have hf : (!(kv.1 == key)) = false := by simp [hk]
      rw [List.filter_cons_of_neg (by simp [hk]), List.find?_cons, hb]
      exact ih
    · rw [List.filter_cons_of_pos (by simpa using hk), List.find?_cons, List.find?_cons, ih]

/-- Reading back the key just inserted gives the inserted value. -/
theorem QJsonObject.value_insert_self (o : QJsonObject) (key : String) (v : QJsonValue) :
    QJsonObject.value (QJsonObject.insert o key v) key = v := by
  unfold QJsonObject.value QJsonObject.insert
  by_cases hv : v.isUndefined = true
  · rw [if_pos hv, QJsonObject.find_remove_self]
    cases v <;> simp_all [QJsonValue.isUndefined]
  · rw [if_neg hv, List.find?_append, QJsonObject.find_remove_self]
    simp [List.find?_cons]

/-- Inserting under a key leaves the value of every other key alone. -/
theorem QJsonObject.value_insert_other (o : QJsonObject) (key other : String)
    (v : QJsonValue) (h : other ≠ key) :
    QJsonObject.value (QJsonObject.insert o key v) other = QJsonObject.value o other := by
  unfold QJsonObject.value QJsonObject.insert
  by_cases hv : v.isUndefined = true
  · rw [if_pos hv, QJsonObject.find_remove_other o key other h]
  · rw [if_neg hv, List.find?_append, QJsonObject.find_remove_other o key other h]
    have hb : (key == other) = false := by simpa using Ne.symm h
    cases hf : List.find? (fun kv => kv.1 == other) o with
    | some kv => simp
    | none => simp [List.find?_cons, hb]

/-! ## The heap -/

theorem World.mapsKept_refl (w : World) : World.mapsKept w w := fun _ _ h => h

theorem World.mapsKept_trans {w1 w2 w3 : World} (h12 : World.mapsKept w1 w2)
    (h23 : World.mapsKept w2 w3) : World.mapsKept w1 w3 :=
  fun p m h => h23 p m (h12 p m h)

theorem World.mapAt_lt {w : World} {p : MapPtr} {m : Map} (h : w.mapAt p = some m) :
    p < w.maps.length := by
  unfold World.mapAt at h
  by_contra hlt
  rw [List.getElem?_eq_none (Nat.le_of_not_lt hlt)] at h
  simp at h

theorem World.stampAt_lt {w : World} {p : StampPtr} {d : TileStampData}
    (h : w.stampAt p = some d) : p < w.stamps.length := by
  unfold World.stampAt at h
  by_contra hlt
  rw [List.getElem?_eq_none (Nat.le_of_not_lt hlt)] at h
  simp at h

theorem World.mapAt_newMap_new (w : World) (m : Map) :
    (w.newMap m).1.mapAt (w.newMap m).2 = some m := by
  simp [World.newMap, World.mapAt]

theorem World.mapsKept_newMap (w : World) (m : Map) : World.mapsKept w (w.newMap m).1 := by
  intro p m' h
  have hlt := World.mapAt_lt h
  unfold World.mapAt at h ⊢
  simp only [World.newMap]
  rw [List.getElem?_append_left hlt]
  exact h

theorem World.stampAt_setStamp_self (w : World) (s : StampPtr) (d : TileStampData)
    (h : s < w.stamps.length) : (w.setStamp s d).stampAt s = some d := by
  simp [World.setStamp, World.stampAt, List.getElem?_set, h]

theorem World.stampAt_setStamp_other (w : World) (s s' : StampPtr) (d : TileStampData)
    (h : s' ≠ s) : (w.setStamp s d).stampAt s' = w.stampAt s' := by
  simp [World.setStamp, World.stampAt, List.getElem?_set, Ne.symm h]

theorem World.stampAt_newStampData_new (w : World) (d : TileStampData) :
    (w.newStampData d).1.stampAt (w.newStampData d).2 = some d := by
  simp [World.newStampData, World.stampAt]

theorem World.stampAt_newStampData_old (w : World) (d : TileStampData) (s : StampPtr)
    (h : s < w.stamps.length) : (w.newStampData d).1.stampAt s = w.stampAt s := by
  simp only [World.newStampData, World.stampAt]
  rw [List.getElem?_append_left h]

/-- The contents of a list of variations stay what they are in a world that
keeps every live map. -/
theorem TileStamp.variationContents_kept {w w' : World} (h : World.mapsKept w w')
    (vs : List TileStampVariation) (l : List (ℚ × Map))
    (hv : TileStamp.variationContents w vs = some l) :
    TileStamp.variationContents w' vs = some l := by
  induction vs generalizing l with
  | nil => simpa [TileStamp.variationContents] using hv
  | cons v rest ih =>
    simp only [TileStamp.variationContents, Option.bind_eq_bind, Option.bind_eq_some,
      Option.pure_def, Option.some.injEq] at hv ⊢
    obtain ⟨m, hm, r, hr, hl⟩ := hv
    exact ⟨m, h _ _ hm, r, ih r hr, hl⟩

theorem TileStamp.variationContents_append (w : World) (vs : List TileStampVariation)
    (l : List (ℚ × Map)) (v : TileStampVariation) (m : Map)
    (hv : TileStamp.variationContents w vs = some l) (hm : w.mapAt v.map = some m) :
    TileStamp.variationContents w (vs ++ [v]) = some (l ++ [(v.probability, m)]) := by
  induction vs generalizing l with
  | nil =>
    simp only [TileStamp.variationContents, Option.some.injEq] at hv
    subst hv
    simp [TileStamp.variationContents, hm]
  | cons v' rest ih =>
    simp only [TileStamp.variationContents, Option.bind_eq_bind, Option.bind_eq_some,
      Option.pure_def, Option.some.injEq] at hv
    obtain ⟨m', hm', r, hr, hl⟩ := hv
    subst hl
    simp [TileStamp.variationContents, hm', ih r hr]

/-! ## Loading a stamp from JSON -/

theorem TileStamp.addVariation_false_eq (w : World) (stamp : StampPtr) (map : MapPtr)
    (probability : ℚ) (m : Map) (d : TileStampData)
    (hm : w.mapAt map = some m) (hd : w.stampAt stamp = some d) :
    TileStamp.addVariation false w stamp map probability
      = some ((w.addReferences m.tilesets).setStamp stamp
          { d with variations := d.variations ++ [⟨map, probability⟩] }, stamp) := by
  have hd' : (w.addReferences m.tilesets).stampAt stamp = some d := hd
  simp [TileStamp.addVariation, TileStamp.writable, hm, hd']

theorem TileStamp.toDouble_eq_entryProbability (entry : QJsonValue) :
    (QJsonObject.value entry.toObject "probability").toDouble 1
      = TileStamp.entryProbability entry := by
  unfold TileStamp.entryProbability QJsonValue.toDouble
  cases QJsonObject.value entry.toObject "probability" <;> rfl

/-- What the loop of `fromJson` does to a live stamp: it always completes, and
appends one variation per entry whose map decodes, in order. -/
theorem TileStamp.loadVariations_spec {QVariant : Type} (c : MapCodec QVariant) (mapDir : Dir)
    (stamp : StampPtr) (entries : QJsonArray) :
    ∀ (w : World) (d : TileStampData) (l0 : List (ℚ × Map)),
      w.stampAt stamp = some d →
      TileStamp.variationContents w d.variations = some l0 →
      ∃ w' vs, TileStamp.loadVariations c mapDir stamp w entries = some w' ∧
        w'.stampAt stamp = some { d with variations := vs } ∧
        TileStamp.variationContents w' vs
          = some (l0 ++ TileStamp.decodedEntries c mapDir entries) ∧
        World.mapsKept w w' ∧ w'.stamps.length = w.stamps.length ∧
        (∀ s, s ≠ stamp → w'.stampAt s = w.stampAt s) := by
  induction entries with
  | nil =>
    intro w d l0 hd hl
    exact ⟨w, d.variations, rfl, hd, by simpa [TileStamp.decodedEntries] using hl,
      World.mapsKept_refl w, rfl, fun _ _ => rfl⟩
  | cons entry rest ih =>
    intro w d l0 hd hl
    cases hdec : TileStamp.entryMap c mapDir entry with
    | none =>
      obtain ⟨w', vs, h1, h2, h3, h4, h5, h6⟩ := ih w d l0 hd hl
      refine ⟨w', vs, ?_, h2, ?_, h4, h5, h6⟩
      · unfold TileStamp.entryMap at hdec
        simp only [TileStamp.loadVariations, hdec]
        exact h1
      · simpa [TileStamp.decodedEntries, hdec] using h3
    | some m =>
      have hnew := World.mapAt_newMap_new w m
      have hd1 : (w.newMap m).1.stampAt stamp = some d := hd
      have hadd := TileStamp.addVariation_false_eq (w.newMap m).1 stamp (w.newMap m).2
        (TileStamp.entryProbability entry) m d hnew hd1
      have hlt : stamp < (w.newMap m).1.stamps.length := World.stampAt_lt hd1
      have hkept : World.mapsKept w
          (((w.newMap m).1.addReferences m.tilesets).setStamp stamp
            { d with variations := d.variations ++ [⟨(w.newMap m).2, TileStamp.entryProbability entry⟩] }) :=
        World.mapsKept_newMap w m
      have hd2 := World.stampAt_setStamp_self ((w.newMap m).1.addReferences m.tilesets) stamp
        { d with variations := d.variations ++ [⟨(w.newMap m).2, TileStamp.entryProbability entry⟩] } hlt
      have hl2 := TileStamp.variationContents_append _ d.variations l0
        ⟨(w.newMap m).2, TileStamp.entryProbability entry⟩ m
        (TileStamp.variationContents_kept hkept _ _ hl) hnew
      obtain ⟨w', vs, h1, h2, h3, h4, h5, h6⟩ := ih _ _ _ hd2 hl2
      refine ⟨w', vs, ?_, h2, ?_, World.mapsKept_trans hkept h4, ?_, ?_⟩
      · unfold TileStamp.entryMap at hdec
        simp only [TileStamp.loadVariations, hdec, TileStamp.toDouble_eq_entryProbability]
        rw [hadd]
        exact h1
      · simpa [TileStamp.decodedEntries, hdec] using h3
      · rw [h5]
        simp [World.setStamp, World.addReferences, World.newMap]
      · intro s hs
        rw [h6 s hs, World.stampAt_setStamp_other _ _ _ _ hs]
        rfl

/-- What `fromJson` does: it always returns a new stamp, whose name and quick
stamp index are read from the object and whose variations are the decoded
entries; everything that was live before stays as it was. -/
theorem TileStamp.fromJson_spec {QVariant : Type} (c : MapCodec QVariant) (w : World)
    (json : QJsonObject) (mapDir : Dir) :
    ∃ w' vs, TileStamp.fromJson c w json mapDir = some (w', w.stamps.length) ∧
      w'.stampAt w.stamps.length
        = some { name := (QJsonObject.value json "name").toString,
                 quickStampIndex := (QJsonObject.value json "quickStampIndex").toInt (-1),
                 variations := vs } ∧
      TileStamp.variationContents w' vs
        = some (TileStamp.decodedEntries c mapDir (QJsonObject.value json "variations").toArray) ∧
      World.mapsKept w w' ∧
      (∀ s, s < w.stamps.length → w'.stampAt s = w.stampAt s) := by
  have h0 := World.stampAt_newStampData_new w { name := "", variations := [], quickStampIndex := -1 }
  have hlen : (w.newStampData { name := "", variations := [], quickStampIndex := -1 }).2
      = w.stamps.length := rfl
  rw [hlen] at h0
  have hlt : w.stamps.length
      < (w.newStampData { name := "", variations := [], quickStampIndex := -1 }).1.stamps.length := by
    simp [World.newStampData]
  have h1 := World.stampAt_setStamp_self _ w.stamps.length
    { name := (QJsonObject.value json "name").toString, variations := [],
      quickStampIndex := (-1 : Int) } hlt
  have hlt1 : w.stamps.length < ((w.newStampData
      { name := "", variations := [], quickStampIndex := -1 }).1.setStamp w.stamps.length
      { name := (QJsonObject.value json "name").toString, variations := [],
        quickStampIndex := (-1 : Int) }).stamps.length := by
    simp [World.newStampData, World.setStamp]
  have h2 := World.stampAt_setStamp_self _ w.stamps.length
    { name := (QJsonObject.value json "name").toString, variations := [],
      quickStampIndex := (QJsonObject.value json "quickStampIndex").toInt (-1) } hlt1
  obtain ⟨w', vs, hl1, hl2, hl3, hl4, _, hl6⟩ :=
    TileStamp.loadVariations_spec c mapDir w.stamps.length
      (QJsonObject.value json "variations").toArray _ _ [] h2 rfl
  refine ⟨w', vs, ?_, hl2, by simpa using hl3, ?_, ?_⟩
  · simp only [TileStamp.fromJson, TileStamp.create, TileStamp.setName,
      TileStamp.setQuickStampIndex, TileStamp.writable, hlen, h0, h1, Option.map_some',
      Option.bind_eq_bind, Option.some_bind, Bool.false_eq_true, if_false, Option.pure_def]
    rw [hl1]
    rfl
  · exact World.mapsKept_trans (fun p m h => h) hl4
  · intro s hs
    rw [hl6 s (Nat.ne_of_lt hs), World.stampAt_setStamp_other _ _ _ _ (Nat.ne_of_lt hs),
      World.stampAt_setStamp_other _ _ _ _ (Nat.ne_of_lt hs)]
    exact World.stampAt_newStampData_old w _ s hs

/-- C5. `fromJson` always returns a stamp, and its variations are exactly the
entries of the "variations" array whose map decodes, in their original order
(an entry whose map does not decode is skipped and the load goes on), each
with the entry's "probability" number, or 1 when that field is missing or is
not a number. -/
theorem TileStamp.fromJson_keeps_decoded_entries {QVariant : Type} (c : MapCodec QVariant)
    (w : World) (json : QJsonObject) (mapDir : Dir) :
    ∃ w' stamp, TileStamp.fromJson c w json mapDir = some (w', stamp) ∧
      (TileStamp.content w' stamp).map (fun v => v.variations)
        = some ((QJsonObject.value json "variations").toArray.filterMap (fun entry =>
            (TileStamp.entryMap c mapDir entry).map
              (fun m => (TileStamp.entryProbability entry, m)))) := by
  obtain ⟨w', vs, h1, h2, h3, _, _⟩ := TileStamp.fromJson_spec c w json mapDir
  refine ⟨w', w.stamps.length, h1, ?_⟩
  simp only [TileStamp.content, h2, h3, Option.bind_eq_bind, Option.some_bind, Option.pure_def,
    Option.map_some', TileStamp.decodedEntries]

/-! ## Saving a stamp to JSON and loading it back -/

/-- The array `toJson` writes for the variations of a stamp. -/
theorem TileStamp.variationsToJson_spec {QVariant : Type} (c : MapCodec QVariant) (w : World)
    (dir : Dir) (vs : List TileStampVariation) (l : List (ℚ × Map))
    (hv : TileStamp.variationContents w vs = some l) :
    TileStamp.variationsToJson c w dir vs = some (l.map (TileStamp.variationJson c dir)) := by
  induction vs generalizing l with
  | nil =>
    simp only [TileStamp.variationContents, Option.some.injEq] at hv
    subst hv
    rfl
  | cons v rest ih =>
    simp only [TileStamp.variationContents, Option.bind_eq_bind, Option.bind_eq_some,
      Option.pure_def, Option.some.injEq] at hv
    obtain ⟨m, hm, r, hr, hl⟩ := hv
    subst hl
    simp [TileStamp.variationsToJson, TileStamp.variationJson, hm, ih r hr]

/-- The object `toJson` writes for a live stamp. -/
theorem TileStamp.toJson_spec {QVariant : Type} (c : MapCodec QVariant) (w : World)
    (S : StampPtr) (dir : Dir) (v : TileStamp.Content) (hS : TileStamp.content w S = some v) :
    TileStamp.toJson c w S dir = some (TileStamp.contentJson c dir v) := by
  simp only [TileStamp.content, Option.bind_eq_bind, Option.bind_eq_some, Option.pure_def,
    Option.some.injEq] at hS
  obtain ⟨d, hd, l, hl, hv⟩ := hS
  subst hv
  have hjs := TileStamp.variationsToJson_spec c w dir d.variations l hl
  simp only [TileStamp.toJson, hd, hjs, Option.bind_eq_bind, Option.some_bind, Option.pure_def,
    TileStamp.contentJson]

/-- Decoding the array that `toJson` wrote gives back the contents, when the
codec decodes the maps it encoded. -/
theorem TileStamp.decodedEntries_encoded {QVariant : Type} (c : MapCodec QVariant) (dir : Dir)
    (l : List (ℚ × Map))
    (hcodec : ∀ pm ∈ l,
      c.toMap (c.jsonToVariant (c.fromVariant (c.toVariant pm.2 dir))) dir = some pm.2) :
    TileStamp.decodedEntries c dir (l.map (TileStamp.variationJson c dir)) = l := by
  induction l with
  | nil => rfl
  | cons pm rest ih =>
    have hmap : TileStamp.entryMap c dir (TileStamp.variationJson c dir pm) = some pm.2 := by
      simp only [TileStamp.entryMap, TileStamp.variationJson, QJsonValue.toObject,
        QJsonObject.value_insert_self]
      exact hcodec pm (List.mem_cons_self _ _)
    have hprob : TileStamp.entryProbability (TileStamp.variationJson c dir pm) = pm.1 := by
      simp only [TileStamp.entryProbability, TileStamp.variationJson, QJsonValue.toObject]
      rw [QJsonObject.value_insert_other _ _ _ _ (by decide), QJsonObject.value_insert_self]
    have ih' := ih (fun pm' h => hcodec pm' (List.mem_cons_of_mem _ h))
    unfold TileStamp.decodedEntries at ih' ⊢
    rw [List.map_cons, List.filterMap_cons, hmap, hprob]
    simp only [Option.map_some']
    rw [ih']

theorem QJsonValue.toInt_intCast (i : Int) (h : INT_MIN ≤ i ∧ i ≤ INT_MAX) (defaultValue : Int) :
    (QJsonValue.double (i : ℚ)).toInt defaultValue = i := by
  simp [QJsonValue.toInt, h.1, h.2]

theorem TileStamp.contentJson_name {QVariant : Type} (c : MapCodec QVariant) (dir : Dir)
    (v : TileStamp.Content) :
    (QJsonObject.value (TileStamp.contentJson c dir v) "name").toString = v.name := by
  unfold TileStamp.contentJson
  rw [QJsonObject.value_insert_other _ _ _ _ (by decide)]
  split
  · rw [QJsonObject.value_insert_other _ _ _ _ (by decide), QJsonObject.value_insert_self]
    rfl
  · rw [QJsonObject.value_insert_self]
    rfl

theorem TileStamp.contentJson_quickStampIndex {QVariant : Type} (c : MapCodec QVariant)
    (dir : Dir) (v : TileStamp.Content)
    (hint : INT_MIN ≤ v.quickStampIndex ∧ v.quickStampIndex ≤ INT_MAX) :
    (QJsonObject.value (TileStamp.contentJson c dir v) "quickStampIndex").toInt (-1)
      = v.quickStampIndex := by
  unfold TileStamp.contentJson
  rw [QJsonObject.value_insert_other _ _ _ _ (by decide)]
  split
  · rw [QJsonObject.value_insert_self]
    exact QJsonValue.toInt_intCast _ hint _
  · rename_i hq
    rw [QJsonObject.value_insert_other _ _ _ _ (by decide)]
    simp only [ne_eq, not_not] at hq
    rw [hq]
    rfl

/-- C1. For a live stamp S whose quick stamp index is an `int`, and a codec
that decodes the maps of S it encoded back to the same content,
`fromJson(S.toJson(dir), dir)` is a stamp with the same name, the same quick
stamp index and the same variations in the same order, each with the same
probability and the same map content. -/
theorem TileStamp.fromJson_toJson {QVariant : Type} (c : MapCodec QVariant) (w : World)
    (S : StampPtr) (dir : Dir) (v : TileStamp.Content)
    (hS : TileStamp.content w S = some v)
    (hint : INT_MIN ≤ v.quickStampIndex ∧ v.quickStampIndex ≤ INT_MAX)
    (hcodec : ∀ pm ∈ v.variations,
      c.toMap (c.jsonToVariant (c.fromVariant (c.toVariant pm.2 dir))) dir = some pm.2) :
    ∃ json w' S', TileStamp.toJson c w S dir = some json ∧
      TileStamp.fromJson c w json dir = some (w', S') ∧
      TileStamp.content w' S' = some v := by
  obtain ⟨w', vs, h1, h2, h3, _, _⟩ :=
    TileStamp.fromJson_spec c w (TileStamp.contentJson c dir v) dir
  refine ⟨TileStamp.contentJson c dir v, w', w.stamps.length,
    TileStamp.toJson_spec c w S dir v hS, h1, ?_⟩
  rw [TileStamp.contentJson_name, TileStamp.contentJson_quickStampIndex c dir v hint] at h2
  have harr : (QJsonObject.value (TileStamp.contentJson c dir v) "variations").toArray
      = v.variations.map (TileStamp.variationJson c dir) := by
    unfold TileStamp.contentJson
    rw [QJsonObject.value_insert_self]
    rfl
  rw [harr, TileStamp.decodedEntries_encoded c dir v.variations hcodec] at h3
  simp only [TileStamp.content, h2, h3, Option.bind_eq_bind, Option.some_bind, Option.pure_def]

theorem Sample.decodeNats_encoded (l : List Nat) :
    Sample.decodeNats (l.map (fun (n : Nat) => QJsonValue.double (n : ℚ))) = l := by
  induction l with
  | nil => rfl
  | cons n rest ih =>
    unfold Sample.decodeNats at ih ⊢
    rw [List.map_cons, List.map_cons, ih]
    simp

/-- The sample codec decodes every map it encoded. -/
theorem Sample.codec_roundtrip (m : Map) (dir : Dir) :
    Sample.codec.toMap (Sample.codec.jsonToVariant
      (Sample.codec.fromVariant (Sample.codec.toVariant m dir))) dir = some m := by
  simp [Sample.codec, Sample.encodeMap, Sample.decodeMap, Sample.decodeNats_encoded]

/-- C1 at the sample world: the stamp "Grass" comes back from its JSON. -/
theorem TileStamp.fromJson_toJson_witness :
    ∃ json w' S', TileStamp.toJson Sample.codec Sample.world 0 "stamps" = some json ∧
      TileStamp.fromJson Sample.codec Sample.world json "stamps" = some (w', S') ∧
      TileStamp.content w' S'
        = some { name := "Grass", quickStampIndex := 3, variations := [(2, Sample.grass)] } :=
  TileStamp.fromJson_toJson Sample.codec Sample.world 0 "stamps"
    { name := "Grass", quickStampIndex := 3, variations := [(2, Sample.grass)] }
    rfl (by decide) (fun pm _ => Sample.codec_roundtrip pm.2 "stamps")

/-! ## Deep copies -/

theorem TileStamp.variationContents_variationsAt (pre : List (Option Map))
    (l : List (ℚ × Map)) (post : List (Option Map)) (w : World)
    (hw : w.maps = pre ++ TileStamp.cellsOf l ++ post) :
    TileStamp.variationContents w (TileStamp.variationsAt pre.length l) = some l := by
  induction l generalizing pre with
  | nil => rfl
  | cons pm rest ih =>
    have hm : w.mapAt pre.length = some pm.2 := by
      unfold World.mapAt
      rw [hw, List.append_assoc, List.getElem?_append_right (Nat.le_refl _)]
      simp [TileStamp.cellsOf]
    have hrest := ih (pre ++ [some pm.2]) (by simp [hw, TileStamp.cellsOf])
    simp only [List.length_append, List.length_singleton] at hrest
    simp [TileStamp.variationsAt, TileStamp.variationContents, hm, hrest]

/-- The copy loop on live variations: the copies are appended to the map heap
in order, their tilesets are referenced once more, nothing else changes. -/
theorem TileStamp.copyVariations_spec (vs : List TileStampVariation) :
    ∀ (w : World) (l : List (ℚ × Map)), TileStamp.variationContents w vs = some l →
      TileStamp.copyVariations w vs
        = some ({ maps := w.maps ++ TileStamp.cellsOf l, stamps := w.stamps,
                  tilesetRefs := fun t => w.tilesetRefs t + TileStamp.usesIn l t },
                TileStamp.variationsAt w.maps.length l) := by
  induction vs with
  | nil =>
    intro w l hl
    simp only [TileStamp.variationContents, Option.some.injEq] at hl
    subst hl
    simp [TileStamp.copyVariations, TileStamp.cellsOf, TileStamp.usesIn, TileStamp.variationsAt]
  | cons v rest ih =>
    intro w l hl
    simp only [TileStamp.variationContents, Option.bind_eq_bind, Option.bind_eq_some,
      Option.pure_def, Option.some.injEq] at hl
    obtain ⟨m, hm, r, hr, hl⟩ := hl
    subst hl
    have hkept : World.mapsKept w ((w.newMap m).1.addReferences m.tilesets) :=
      World.mapsKept_newMap w m
    have h := ih ((w.newMap m).1.addReferences m.tilesets) r
      (TileStamp.variationContents_kept hkept _ _ hr)
    simp only [TileStamp.copyVariations, hm, Option.bind_eq_bind, Option.some_bind, h,
      Option.pure_def, Option.some.injEq, Prod.mk.injEq]
    refine ⟨?_, ?_⟩
    · simp only [World.addReferences, World.newMap, TileStamp.cellsOf, TileStamp.usesIn,
        List.map_cons, List.sum_cons, List.append_assoc, List.singleton_append, World.mk.injEq,
        true_and]
      funext t
      ring
    · simp [World.addReferences, World.newMap, TileStamp.variationsAt]

/-- The copy constructor on a live stamp. -/
theorem TileStamp.copyData_spec (w : World) (S : StampPtr) (v : TileStamp.Content)
    (hS : TileStamp.content w S = some v) :
    TileStamp.copyData w S
      = some ({ maps := w.maps ++ TileStamp.cellsOf v.variations,
                stamps := w.stamps ++ [some
                  { name := v.name,
                    variations := TileStamp.variationsAt w.maps.length v.variations,
                    quickStampIndex := -1 }],
                tilesetRefs := fun t => w.tilesetRefs t + TileStamp.usesIn v.variations t },
              w.stamps.length) := by
  simp only [TileStamp.content, Option.bind_eq_bind, Option.bind_eq_some, Option.pure_def,
    Option.some.injEq] at hS
  obtain ⟨d, hd, l, hl, hv⟩ := hS
  subst hv
  simp only [TileStamp.copyData, hd, TileStamp.copyVariations_spec d.variations w l hl,
    Option.bind_eq_bind, Option.some_bind, Option.pure_def, World.newStampData]

/-! ## Flipping and rotating -/

/-- The loop of `flipped` and `rotated` on freshly copied variations: every
copy is altered, nothing else. -/
theorem TileStamp.alterMaps_spec (body : Map → Map) (l : List (ℚ × Map)) :
    ∀ (pre post : List (Option Map)) (w : World),
      w.maps = pre ++ TileStamp.cellsOf l ++ post →
      TileStamp.alterMaps body w (TileStamp.variationsAt pre.length l)
        = some { w with
            maps := pre ++ TileStamp.cellsOf (l.map (fun pm => (pm.1, body pm.2))) ++ post } := by
  induction l with
  | nil =>
    intro pre post w hw
    simp only [TileStamp.variationsAt, TileStamp.alterMaps, List.map_nil]
    rw [← hw]
  | cons pm rest ih =>
    intro pre post w hw
    have hm : w.mapAt pre.length = some pm.2 := by
      unfold World.mapAt
      rw [hw, List.append_assoc, List.getElem?_append_right (Nat.le_refl _)]
      simp [TileStamp.cellsOf]
    have hset : (w.setMap pre.length (body pm.2)).maps
        = (pre ++ [some (body pm.2)]) ++ TileStamp.cellsOf rest ++ post := by
      simp only [World.setMap, hw, TileStamp.cellsOf, List.map_cons, List.append_assoc,
        List.singleton_append]
      rw [List.set_append_right _ _ (Nat.le_refl _)]
      simp
    have h := ih (pre ++ [some (body pm.2)]) post _ hset
    simp only [List.length_append, List.length_singleton] at h
    simp only [TileStamp.variationsAt, TileStamp.alterMaps, hm, Option.bind_eq_bind,
      Option.some_bind, h]
    simp [World.setMap, TileStamp.cellsOf]

/-- What `flipped` and `rotated` do with a live stamp, for any loop body: the
copy is made of new heap cells, and the world that was there is untouched. -/
theorem TileStamp.copy_then_alter (body : Map → Map) (w : World) (S : StampPtr)
    (v : TileStamp.Content) (hS : TileStamp.content w S = some v) :
    (do
      let (w1, copy) ← TileStamp.copyData w S
      let d ← w1.stampAt copy
      let w2 ← TileStamp.alterMaps body w1 d.variations
      pure (w2, copy))
      = some ({ maps := w.maps
                  ++ TileStamp.cellsOf (v.variations.map (fun pm => (pm.1, body pm.2))),
                stamps := w.stamps ++ [some
                  { name := v.name,
                    variations := TileStamp.variationsAt w.maps.length v.variations,
                    quickStampIndex := -1 }],
                tilesetRefs := fun t => w.tilesetRefs t + TileStamp.usesIn v.variations t },
              w.stamps.length) := by
  have halter := TileStamp.alterMaps_spec body v.variations w.maps []
    { maps := w.maps ++ TileStamp.cellsOf v.variations,
      stamps := w.stamps ++ [some
        { name := v.name,
          variations := TileStamp.variationsAt w.maps.length v.variations,
          quickStampIndex := -1 }],
      tilesetRefs := fun t => w.tilesetRefs t + TileStamp.usesIn v.variations t }
    (by simp)
  simp only [List.append_nil] at halter
  simp only [TileStamp.copyData_spec w S v hS, Option.bind_eq_bind, Option.some_bind,
    World.stampAt, List.getElem?_concat_length, Option.join, id, halter, Option.pure_def]

/-- A live stamp is still live, with the same content, when the heaps only
grow. -/
theorem TileStamp.content_of_append (w w' : World) (S : StampPtr) (v : TileStamp.Content)
    (hS : TileStamp.content w S = some v) (newMaps : List (Option Map))
    (newStamps : List (Option TileStampData)) (hm : w'.maps = w.maps ++ newMaps)
    (hs : w'.stamps = w.stamps ++ newStamps) : TileStamp.content w' S = some v := by
  simp only [TileStamp.content, Option.bind_eq_bind, Option.bind_eq_some, Option.pure_def,
    Option.some.injEq] at hS ⊢
  obtain ⟨d, hd, l, hl, hv⟩ := hS
  have hkept : World.mapsKept w w' := by
    intro p m h
    have hlt := World.mapAt_lt h
    unfold World.mapAt at h ⊢
    rw [hm, List.getElem?_append_left hlt]
    exact h
  refine ⟨d, ?_, l, TileStamp.variationContents_kept hkept _ _ hl, hv⟩
  have hlt := World.stampAt_lt hd
  unfold World.stampAt at hd ⊢
  rw [hs, List.getElem?_append_left hlt]
  exact hd

/-- C4. For a live stamp S and every direction, `S.flipped(direction)` and
`S.rotated(direction)` return a stamp and leave S as it was: after the call S
has the same name, quick stamp index, variations, probabilities and map
contents (layer cells, width and height), and every map and every stamp that
existed before is unchanged; the calls only add heap cells, those of the
returned stamp. -/
theorem TileStamp.flipped_rotated_leave_original (ops : LayerOps) (w : World) (S : StampPtr)
    (v : TileStamp.Content) (hS : TileStamp.content w S = some v) :
    (∀ direction, ∃ w' S' newMaps newStamps,
        TileStamp.flipped ops w S direction = some (w', S') ∧
        TileStamp.content w' S = some v ∧
        w'.maps = w.maps ++ newMaps ∧ w'.stamps = w.stamps ++ newStamps) ∧
    (∀ direction, ∃ w' S' newMaps newStamps,
        TileStamp.rotated ops w S direction = some (w', S') ∧
        TileStamp.content w' S = some v ∧
        w'.maps = w.maps ++ newMaps ∧ w'.stamps = w.stamps ++ newStamps) := by
  constructor
  · intro direction
    have h := TileStamp.copy_then_alter (TileStamp.flipMap ops direction) w S v hS
    refine ⟨_, _, _, _, h, ?_, rfl, rfl⟩
    exact TileStamp.content_of_append w _ S v hS _ _ rfl rfl
  · intro direction
    have h := TileStamp.copy_then_alter (TileStamp.rotateMap ops direction) w S v hS
    refine ⟨_, _, _, _, h, ?_, rfl, rfl⟩
    exact TileStamp.content_of_append w _ S v hS _ _ rfl rfl

/-- C4 at the sample world: flipping and rotating "Grass" leaves it alone. -/
theorem TileStamp.flipped_rotated_leave_original_witness :
    (∀ direction, ∃ w' S' newMaps newStamps,
        TileStamp.flipped Sample.layerOps Sample.world 0 direction = some (w', S') ∧
        TileStamp.content w' 0
          = some { name := "Grass", quickStampIndex := 3, variations := [(2, Sample.grass)] } ∧
        w'.maps = Sample.world.maps ++ newMaps ∧
        w'.stamps = Sample.world.stamps ++ newStamps) ∧
    (∀ direction, ∃ w' S' newMaps newStamps,
        TileStamp.rotated Sample.layerOps Sample.world 0 direction = some (w', S') ∧
        TileStamp.content w' 0
          = some { name := "Grass", quickStampIndex := 3, variations := [(2, Sample.grass)] } ∧
        w'.maps = Sample.world.maps ++ newMaps ∧
        w'.stamps = Sample.world.stamps ++ newStamps) :=
  TileStamp.flipped_rotated_leave_original Sample.layerOps Sample.world 0
    { name := "Grass", quickStampIndex := 3, variations := [(2, Sample.grass)] } rfl

/-! ## Reference counting -/

theorem Tracked.lt {P : Map → Prop} {maps : List (Option Map)} {L : List TileStampVariation}
    {refs : Tileset → Int} (h : Tracked P maps L refs) (v : TileStampVariation) (hv : v ∈ L) :
    v.map < maps.length := by
  obtain ⟨m, hm, _⟩ := h.2.1 v hv
  by_contra hlt
  rw [List.getElem?_eq_none (Nat.le_of_not_lt hlt)] at hm
  simp at hm

theorem Tracked.perm {P : Map → Prop} {maps : List (Option Map)} {L L' : List TileStampVariation}
    {refs : Tileset → Int} (h : Tracked P maps L refs) (hp : L.Perm L') :
    Tracked P maps L' refs := by
  refine ⟨(hp.map _).nodup_iff.mp h.1, fun v hv => h.2.1 v (hp.mem_iff.mpr hv), fun t => ?_⟩
  rw [h.2.2 t, (hp.map _).sum_eq]

theorem Tracked.refs_congr {P : Map → Prop} {maps : List (Option Map)} {L : List TileStampVariation}
    {refs refs' : Tileset → Int} (h : Tracked P maps L refs) (he : ∀ t, refs' t = refs t) :
    Tracked P maps L refs' :=
  ⟨h.1, h.2.1, fun t => by rw [he t, h.2.2 t]⟩

/-- Growing the map heap keeps the discipline. -/
theorem Tracked.grow {P : Map → Prop} {maps : List (Option Map)} {L : List TileStampVariation}
    {refs : Tileset → Int} (h : Tracked P maps L refs) (extra : List (Option Map)) :
    Tracked P (maps ++ extra) L refs := by
  have hget : ∀ v ∈ L, (maps ++ extra)[v.map]? = maps[v.map]? := fun v hv =>
    List.getElem?_append_left (h.lt v hv)
  refine ⟨h.1, fun v hv => ?_, fun t => ?_⟩
  · rw [hget v hv]
    exact h.2.1 v hv
  · rw [h.2.2 t]
    congr 2
    apply List.map_congr_left
    intro v hv
    simp only [tilesetsIn, hget v hv]

/-- A variation that owns a live map nobody owns joins the live ones: the
counts go up by the listings of its map. -/
theorem Tracked.add {P : Map → Prop} {maps : List (Option Map)} {L : List TileStampVariation}
    {refs refs' : Tileset → Int} (h : Tracked P maps L refs) (v : TileStampVariation) (m : Map)
    (hm : (maps[v.map]?).join = some m) (hP : P m) (hfresh : ∀ v' ∈ L, v'.map ≠ v.map)
    (hrefs : ∀ t, refs' t = refs t + (m.tilesets.count t : Nat)) :
    Tracked P maps (v :: L) refs' := by
  refine ⟨?_, ?_, fun t => ?_⟩
  · rw [List.map_cons, List.nodup_cons]
    refine ⟨?_, h.1⟩
    intro hmem
    obtain ⟨v', hv', he⟩ := List.mem_map.mp hmem
    exact hfresh v' hv' he
  · intro v' hv'
    rcases List.mem_cons.mp hv' with rfl | hv'
    · exact ⟨m, hm, hP⟩
    · exact h.2.1 v' hv'
  · rw [hrefs t, h.2.2 t, List.map_cons, List.sum_cons]
    simp only [tilesetsIn, hm]
    push_cast
    ring

/-- A live variation goes away and its map is deleted: the counts go down by
the listings of that map. -/
theorem Tracked.remove {P : Map → Prop} {maps : List (Option Map)} {L : List TileStampVariation}
    {refs refs' : Tileset → Int} (v : TileStampVariation) (h : Tracked P maps (v :: L) refs)
    (m : Map) (hm : (maps[v.map]?).join = some m)
    (hrefs : ∀ t, refs' t = refs t - (m.tilesets.count t : Nat)) :
    Tracked P (maps.set v.map none) L refs' := by
  have hnd := h.1
  rw [List.map_cons, List.nodup_cons] at hnd
  have hne : ∀ v' ∈ L, v.map ≠ v'.map := fun v' hv' he =>
    hnd.1 (List.mem_map.mpr ⟨v', hv', he.symm⟩)
  have hget : ∀ v' ∈ L, (maps.set v.map none)[v'.map]? = maps[v'.map]? := fun v' hv' => by
    rw [List.getElem?_set, if_neg (hne v' hv')]
  refine ⟨hnd.2, fun v' hv' => ?_, fun t => ?_⟩
  · rw [hget v' hv']
    exact h.2.1 v' (List.mem_cons_of_mem _ hv')
  · rw [hrefs t, h.2.2 t, List.map_cons, List.sum_cons]
    simp only [tilesetsIn, hm]
    have hsum : List.map (fun v' => List.count t
          (match ((maps.set v.map none)[v'.map]?).join with
            | some m => m.tilesets
            | none => [])) L
        = List.map (fun v' => List.count t
          (match (maps[v'.map]?).join with
            | some m => m.tilesets
            | none => [])) L := by
      apply List.map_congr_left
      intro v' hv'
      simp only [hget v' hv']
    rw [hsum]
    push_cast
    ring

/-- Copies of maps, owned by new variations at the end of the heap, keep the
discipline: the counts go up by the listings of the copies. -/
theorem Tracked.copy {P : Map → Prop} (l : List (ℚ × Map)) :
    ∀ (maps : List (Option Map)) (L : List TileStampVariation) (refs refs' : Tileset → Int),
      Tracked P maps L refs → (∀ pm ∈ l, P pm.2) →
      (∀ t, refs' t = refs t + TileStamp.usesIn l t) →
      Tracked P (maps ++ TileStamp.cellsOf l) (TileStamp.variationsAt maps.length l ++ L) refs' := by
  induction l with
  | nil =>
    intro maps L refs refs' h _ hrefs
    simpa [TileStamp.cellsOf, TileStamp.variationsAt] using
      h.refs_congr (fun t => by simpa [TileStamp.usesIn] using hrefs t)
  | cons pm rest ih =>
    intro maps L refs refs' h hP hrefs
    have hone : Tracked P (maps ++ [some pm.2]) (⟨maps.length, pm.1⟩ :: L)
        (fun t => refs t + (pm.2.tilesets.count t : Nat)) := by
      refine (h.grow [some pm.2]).add ⟨maps.length, pm.1⟩ pm.2 (by simp)
        (hP pm (List.mem_cons_self _ _)) ?_ (fun _ => rfl)
      intro v' hv'
      exact Nat.ne_of_lt (h.lt v' hv')
    have hrest := ih (maps ++ [some pm.2]) (⟨maps.length, pm.1⟩ :: L) _ refs' hone
      (fun pm' h' => hP pm' (List.mem_cons_of_mem _ h')) (fun t => by
      rw [hrefs t]
      simp only [TileStamp.usesIn, List.map_cons, List.sum_cons]
      ring)
    have hmaps : maps ++ TileStamp.cellsOf (pm :: rest)
        = (maps ++ [some pm.2]) ++ TileStamp.cellsOf rest := by
      simp [TileStamp.cellsOf]
    rw [hmaps]
    refine hrest.perm ?_
    simp only [List.length_append, List.length_singleton, TileStamp.variationsAt,
      List.cons_append]
    exact List.perm_middle

/-- The destructor loop over variations that are live: it completes, deletes
their maps and gives back their references. -/
theorem Tracked.destroyVariations {P : Map → Prop} (vs : List TileStampVariation) :
    ∀ (w : World) (L : List TileStampVariation), Tracked P w.maps (vs ++ L) w.tilesetRefs →
      ∃ w', TileStamp.destroyVariations w vs = some w' ∧ w'.stamps = w.stamps ∧
        Tracked P w'.maps L w'.tilesetRefs := by
  induction vs with
  | nil =>
    intro w L h
    exact ⟨w, rfl, rfl, h⟩
  | cons v rest ih =>
    intro w L h
    obtain ⟨m, hm, _⟩ := h.2.1 v (by simp)
    have hstep : Tracked P ((w.removeReferences m.tilesets).deleteMap v.map).maps (rest ++ L)
        ((w.removeReferences m.tilesets).deleteMap v.map).tilesetRefs :=
      Tracked.remove v h m hm (fun _ => rfl)
    obtain ⟨w', h1, h2, h3⟩ := ih _ L hstep
    refine ⟨w', ?_, h2, h3⟩
    have hm' : w.mapAt v.map = some m := hm
    simp only [TileStamp.destroyVariations, hm', Option.bind_eq_bind, Option.some_bind]
    exact h1

theorem variationsIn_append (a b : List (Option TileStampData)) :
    variationsIn (a ++ b) = variationsIn a ++ variationsIn b := by
  simp [variationsIn, List.flatMap_append]

theorem variationsIn_cons_some (d : TileStampData) (rest : List (Option TileStampData)) :
    variationsIn (some d :: rest) = d.variations ++ variationsIn rest := by
  simp [variationsIn, List.flatMap_cons]

/-- A live stamp splits the stamp heap around its cell. -/
theorem World.split_at_stamp {w : World} {s : StampPtr} {d : TileStampData}
    (h : w.stampAt s = some d) :
    ∃ l1 l2, w.stamps = l1 ++ some d :: l2 ∧ l1.length = s := by
  have hlt := World.stampAt_lt h
  refine ⟨w.stamps.take s, w.stamps.drop (s + 1), ?_, by simp [Nat.le_of_lt hlt]⟩
  have hget : w.stamps[s] = some d := by
    unfold World.stampAt at h
    rw [List.getElem?_eq_getElem hlt] at h
    simpa using h
  rw [← hget, ← List.drop_eq_getElem_cons hlt, List.take_append_drop]

theorem TileStamp.variationContents_of_live {P : Map → Prop} (w : World)
    (vs : List TileStampVariation) (h : ∀ v ∈ vs, ∃ m, w.mapAt v.map = some m ∧ P m) :
    ∃ l, TileStamp.variationContents w vs = some l ∧ ∀ pm ∈ l, P pm.2 := by
  induction vs with
  | nil => exact ⟨[], rfl, by simp⟩
  | cons v rest ih =>
    obtain ⟨m, hm, hP⟩ := h v (by simp)
    obtain ⟨l, hl, hPl⟩ := ih (fun v' hv' => h v' (List.mem_cons_of_mem _ hv'))
    refine ⟨(v.probability, m) :: l, by simp [TileStamp.variationContents, hm, hl], ?_⟩
    intro pm hpm
    rcases List.mem_cons.mp hpm with rfl | hpm
    · exact hP
    · exact hPl pm hpm

/-- Under the discipline an allocated stamp is live: all its maps are, and
they have the property of the discipline. -/
theorem Tracked.content {P : Map → Prop} {w : World}
    (h : Tracked P w.maps w.liveVariations w.tilesetRefs)
    {s : StampPtr} {d : TileStampData} (hd : w.stampAt s = some d) :
    ∃ l, TileStamp.content w s
        = some { name := d.name, quickStampIndex := d.quickStampIndex, variations := l } ∧
      ∀ pm ∈ l, P pm.2 := by
  obtain ⟨l1, l2, hsplit, _⟩ := World.split_at_stamp hd
  have hlive : ∀ v ∈ d.variations, ∃ m, w.mapAt v.map = some m ∧ P m := by
    intro v hv
    apply h.2.1 v
    simp only [World.liveVariations, hsplit, variationsIn_append, variationsIn_cons_some]
    simp [hv]
  obtain ⟨l, hl, hP⟩ := TileStamp.variationContents_of_live w d.variations hlive
  exact ⟨l, by simp [TileStamp.content, hd, hl], hP⟩

theorem World.stampAt_mk_append (maps : List (Option Map)) (stamps : List (Option TileStampData))
    (refs : Tileset → Int) (d : TileStampData) :
    World.stampAt ⟨maps, stamps ++ [some d], refs⟩ stamps.length = some d := by
  simp [World.stampAt]

theorem TileStamp.thresholdsInsert_greatest (m : List (ℚ × Nat)) (key : ℚ) (value : Nat)
    (h : ∀ kv ∈ m, kv.1 < key) : TileStamp.thresholdsInsert m key value = m ++ [(key, value)] := by
  induction m with
  | nil => rfl
  | cons kv rest ih =>
    obtain ⟨k, v⟩ := kv
    have hk : k < key := h (k, v) (List.mem_cons_self _ _)
    simp only [TileStamp.thresholdsInsert, if_neg (ne_of_gt hk), if_neg (not_lt.mpr (le_of_lt hk)),
      List.cons_append]
    rw [ih (fun kv' hkv' => h kv' (List.mem_cons_of_mem _ hkv'))]

theorem TileStamp.runningSums_lt (rest : List TileStampVariation) :
    ∀ (sum : ℚ) (index : Nat), (∀ v ∈ rest, 0 < v.probability) →
      ∀ kv ∈ TileStamp.runningSums sum index rest, sum < kv.1 := by
  induction rest with
  | nil => intro sum index _ kv hkv; simp [TileStamp.runningSums] at hkv
  | cons v rest ih =>
    intro sum index hpos kv hkv
    have hv : 0 < v.probability := hpos v (List.mem_cons_self _ _)
    simp only [TileStamp.runningSums, List.mem_cons] at hkv
    rcases hkv with rfl | hkv
    · simp only
      linarith
    · have := ih (sum + v.probability) (index + 1)
        (fun v' hv' => hpos v' (List.mem_cons_of_mem _ hv')) kv hkv
      linarith

/-- With positive probabilities the threshold table is the list of running
sums, one entry per variation, in order. -/
theorem TileStamp.probabilityThresholds_eq (rest : List TileStampVariation) :
    ∀ (index : Nat) (sum : ℚ) (m : List (ℚ × Nat)), (∀ v ∈ rest, 0 < v.probability) →
      (∀ kv ∈ m, kv.1 ≤ sum) →
      (TileStamp.probabilityThresholds rest index sum m).1
        = m ++ TileStamp.runningSums sum index rest := by
  induction rest with
  | nil => intro index sum m _ _; simp [TileStamp.probabilityThresholds, TileStamp.runningSums]
  | cons v rest ih =>
    intro index sum m hpos hm
    have hv : 0 < v.probability := hpos v (List.mem_cons_self _ _)
    have hins := TileStamp.thresholdsInsert_greatest m (sum + v.probability) index
      (fun kv hkv => by have := hm kv hkv; linarith)
    simp only [TileStamp.probabilityThresholds, TileStamp.runningSums]
    rw [ih (index + 1) (sum + v.probability) _
      (fun v' hv' => hpos v' (List.mem_cons_of_mem _ hv')) (by
        rw [hins]
        intro kv hkv
        rcases List.mem_append.mp hkv with hkv | hkv
        · have := hm kv hkv
          linarith
        · simp only [List.mem_singleton] at hkv
          rw [hkv]), hins]
    simp

theorem TileStamp.cumulative_cons_zero (v : TileStampVariation) (rest : List TileStampVariation) :
    TileStamp.cumulative (v :: rest) 0 = v.probability := by
  simp [TileStamp.cumulative]

theorem TileStamp.cumulative_cons_succ (v : TileStampVariation) (rest : List TileStampVariation)
    (i : Nat) :
    TileStamp.cumulative (v :: rest) (i + 1) = v.probability + TileStamp.cumulative rest i := by
  simp [TileStamp.cumulative]

/-- The first running sum that reaches the draw is the one `lowerBound`
finds. -/
theorem TileStamp.lowerBound_runningSums (random : ℚ) (variations : List TileStampVariation) :
    ∀ (sum : ℚ) (index i : Nat), i < variations.length →
      random ≤ sum + TileStamp.cumulative variations i →
      (∀ j, j < i → sum + TileStamp.cumulative variations j < random) →
      TileStamp.lowerBound (TileStamp.runningSums sum index variations) random
        = some (sum + TileStamp.cumulative variations i, index + i) := by
  induction variations with
  | nil => intro sum index i hi; simp at hi
  | cons v rest ih =>
    intro sum index i hi hle hlt
    cases i with
    | zero =>
      rw [TileStamp.cumulative_cons_zero] at hle
      simp [TileStamp.lowerBound, TileStamp.runningSums, List.find?_cons, hle,
        TileStamp.cumulative_cons_zero]
    | succ i =>
      have h0 := hlt 0 (Nat.succ_pos _)
      rw [TileStamp.cumulative_cons_zero] at h0
      have hrest := ih (sum + v.probability) (index + 1) i
        (by simpa using hi)
        (by rw [TileStamp.cumulative_cons_succ] at hle; linarith)
        (fun j hj => by
          have := hlt (j + 1) (by omega)
          rw [TileStamp.cumulative_cons_succ] at this
          linarith)
      unfold TileStamp.lowerBound at hrest ⊢
      simp only [TileStamp.runningSums, List.find?_cons, decide_eq_false (not_le.mpr h0)]
      rw [hrest, TileStamp.cumulative_cons_succ]
      congr 2
      · ring
      · omega

/-- When no running sum reaches the draw, `lowerBound` returns `end()`. -/
theorem TileStamp.lowerBound_runningSums_none (random : ℚ)
    (variations : List TileStampVariation) :
    ∀ (sum : ℚ) (index : Nat),
      (∀ j, j < variations.length → sum + TileStamp.cumulative variations j < random) →
      TileStamp.lowerBound (TileStamp.runningSums sum index variations) random = none := by
  induction variations with
  | nil => intro sum index _; rfl
  | cons v rest ih =>
    intro sum index hlt
    have h0 := hlt 0 (by simp)
    rw [TileStamp.cumulative_cons_zero] at h0
    have hrest := ih (sum + v.probability) (index + 1) (fun j hj => by
      have := hlt (j + 1) (by simpa using hj)
      rw [TileStamp.cumulative_cons_succ] at this
      linarith)
    unfold TileStamp.lowerBound at hrest ⊢
    simp only [TileStamp.runningSums, List.find?_cons, decide_eq_false (not_le.mpr h0)]
    exact hrest

theorem TileStamp.randomVariationAt_of_first (variations : List TileStampVariation) (random : ℚ)
    (hpos : ∀ v ∈ variations, 0 < v.probability) (i : Nat) (hi : i < variations.length)
    (hle : random ≤ TileStamp.cumulative variations i)
    (hlt : ∀ j, j < i → TileStamp.cumulative variations j < random) :
    TileStamp.randomVariationAt variations random = some (variations[i]).map := by
  have hne : variations.isEmpty = false := by
    cases variations with
    | nil => simp at hi
    | cons _ _ => rfl
  have hth := TileStamp.probabilityThresholds_eq variations 0 0 [] hpos (by simp)
  have hlb := TileStamp.lowerBound_runningSums random variations 0 0 i hi (by simpa using hle)
    (fun j hj => by simpa using hlt j hj)
  simp only [List.nil_append] at hth
  simp only [TileStamp.randomVariationAt, hne, hth, hlb, Bool.false_eq_true, if_false,
    Nat.zero_add, List.getElem?_eq_getElem hi, Option.map_some']

/-- C3. For a non-empty stamp whose probabilities are all positive and a draw
`random`: when the draw is at most the total, `randomVariation` returns the
map of the variation at the smallest position i whose cumulative sum of
probabilities (positions 0 to i) is at least the draw; when no cumulative sum
is at least the draw, it returns the map of the last variation. -/
theorem TileStamp.randomVariation_first_threshold (variations : List TileStampVariation)
    (random : ℚ) (hne : variations ≠ []) (hpos : ∀ v ∈ variations, 0 < v.probability) :
    (random ≤ (variations.map (fun v => v.probability)).sum →
      ∃ i, ∃ hi : i < variations.length,
        random ≤ TileStamp.cumulative variations i ∧
        (∀ j, j < i → TileStamp.cumulative variations j < random) ∧
        TileStamp.randomVariationAt variations random = some (variations[i]).map) ∧
    ((∀ i, i < variations.length → TileStamp.cumulative variations i < random) →
      TileStamp.randomVariationAt variations random = some (variations.getLast hne).map) := by
  constructor
  · intro htotal
    have hlen : 0 < variations.length := List.length_pos.mpr hne
    have hex : ∃ i, i < variations.length ∧ random ≤ TileStamp.cumulative variations i := by
      refine ⟨variations.length - 1, by omega, ?_⟩
      have : variations.length - 1 + 1 = variations.length := by omega
      simpa [TileStamp.cumulative, this] using htotal
    classical
    refine ⟨Nat.find hex, (Nat.find_spec hex).1, (Nat.find_spec hex).2, ?_, ?_⟩
    · intro j hj
      have hnot := Nat.find_min hex hj
      have hjlt : j < variations.length := lt_trans hj (Nat.find_spec hex).1
      by_contra hcon
      exact hnot ⟨hjlt, not_lt.mp hcon⟩
    · apply TileStamp.randomVariationAt_of_first variations random hpos _ (Nat.find_spec hex).1
        (Nat.find_spec hex).2
      intro j hj
      have hnot := Nat.find_min hex hj
      have hjlt : j < variations.length := lt_trans hj (Nat.find_spec hex).1
      by_contra hcon
      exact hnot ⟨hjlt, not_lt.mp hcon⟩
  · intro hall
    have hempty : variations.isEmpty = false := by
      cases variations with
      | nil => exact absurd rfl hne
      | cons _ _ => rfl
    have hth := TileStamp.probabilityThresholds_eq variations 0 0 [] hpos (by simp)
    have hlb := TileStamp.lowerBound_runningSums_none random variations 0 0
      (fun j hj => by simpa using hall j hj)
    simp only [List.nil_append] at hth
    simp only [TileStamp.randomVariationAt, hempty, hth, hlb, Bool.false_eq_true, if_false,
      List.getLast?_eq_getLast _ hne, Option.map_some']

/-- C3 on the probabilities 1, 1, 2 with the draw 3/2: the second variation
is returned. -/
theorem TileStamp.randomVariation_first_threshold_witness :
    ((3 / 2 : ℚ) ≤ (Sample.weighted.map (fun v => v.probability)).sum →
      ∃ i, ∃ hi : i < Sample.weighted.length,
        (3 / 2 : ℚ) ≤ TileStamp.cumulative Sample.weighted i ∧
        (∀ j, j < i → TileStamp.cumulative Sample.weighted j < 3 / 2) ∧
        TileStamp.randomVariationAt Sample.weighted (3 / 2) = some (Sample.weighted[i]).map) ∧
    ((∀ i, i < Sample.weighted.length → TileStamp.cumulative Sample.weighted i < 3 / 2) →
      TileStamp.randomVariationAt Sample.weighted (3 / 2)
        = some (Sample.weighted.getLast (by decide)).map) :=
  TileStamp.randomVariation_first_threshold Sample.weighted (3 / 2) (by decide)
    (by simp [Sample.weighted])

/-! ## Stamp names -/

theorem digitValue_digitChar (k : Nat) (h : k < 10) : digitValue (Nat.digitChar k) = k := by
  interval_cases k <;> rfl

theorem decimalValue_append (ds : List Char) (c : Char) :
    decimalValue (ds ++ [c]) = 10 * decimalValue ds + digitValue c := by
  simp [decimalValue, List.foldl_append]

theorem toDigitsCore_value (fuel : Nat) :
    ∀ (n : Nat) (acc : List Char), n < fuel →
      ∃ ds, Nat.toDigitsCore 10 fuel n acc = ds ++ acc ∧ decimalValue ds = n := by
  induction fuel with
  | zero => intro n acc h; omega
  | succ fuel ih =>
    intro n acc h
    by_cases h0 : n / 10 = 0
    · refine ⟨[Nat.digitChar (n % 10)], by simp [Nat.toDigitsCore, h0], ?_⟩
      have hlt : n < 10 := by omega
      have hmod : n % 10 = n := Nat.mod_eq_of_lt hlt
      simp [decimalValue, hmod, digitValue_digitChar n hlt]
    · obtain ⟨ds, hds, hval⟩ := ih (n / 10) (Nat.digitChar (n % 10) :: acc) (by omega)
      refine ⟨ds ++ [Nat.digitChar (n % 10)], by simp [Nat.toDigitsCore, h0, hds], ?_⟩
      rw [decimalValue_append, hval, digitValue_digitChar (n % 10) (Nat.mod_lt _ (by decide))]
      omega

theorem decimalValue_toDigits (n : Nat) : decimalValue (Nat.toDigits 10 n) = n := by
  obtain ⟨ds, hds, hval⟩ := toDigitsCore_value (n + 1) n [] (Nat.lt_succ_self n)
  unfold Nat.toDigits
  rw [hds, List.append_nil, hval]

/-- Different indices give different names "Stamp N". -/
theorem TileStampManager.stampNameTemplate_injective :
    Function.Injective TileStampManager.stampNameTemplate := by
  intro a b h
  have hdata := congrArg String.data h
  simp only [TileStampManager.stampNameTemplate, String.data_append] at hdata
  have hdigits : Nat.toDigits 10 a = Nat.toDigits 10 b := List.append_cancel_left hdata
  rw [← decimalValue_toDigits a, ← decimalValue_toDigits b, hdigits]

theorem TileStampManager.stampNameTemplate_ne_empty (index : Nat) :
    TileStampManager.stampNameTemplate index ≠ "" := by
  intro h
  have hdata := congrArg String.data h
  simp [TileStampManager.stampNameTemplate, String.data_append] at hdata

theorem QMap.contains_iff {T : Type} (m : QMap T) (key : String) :
    QMap.contains m key = true ↔ key ∈ m.map (fun kv => kv.1) := by
  simp only [QMap.contains, List.any_eq_true, beq_iff_eq, List.mem_map]

/-- A finite index leaves one of the names "Stamp 1" to "Stamp size+1" free. -/
theorem TileStampManager.exists_free_name {T : Type} (m : QMap T) :
    ∃ N, 0 < N ∧ N ≤ m.length + 1 ∧
      QMap.contains m (TileStampManager.stampNameTemplate N) = false := by
  by_contra hno
  have hall : ∀ N, 0 < N → N ≤ m.length + 1 →
      QMap.contains m (TileStampManager.stampNameTemplate N) = true := by
    intro N h1 h2
    by_contra hc
    exact hno ⟨N, h1, h2, by simpa using hc⟩
  have hnodup : ((List.range (m.length + 1)).map
      (fun i => TileStampManager.stampNameTemplate (i + 1))).Nodup := by
    apply List.Nodup.map _ (List.nodup_range _)
    intro a b hab
    have := TileStampManager.stampNameTemplate_injective hab
    omega
  have hsub : (List.range (m.length + 1)).map
      (fun i => TileStampManager.stampNameTemplate (i + 1)) ⊆ m.map (fun kv => kv.1) := by
    intro name hname
    obtain ⟨i, hi, rfl⟩ := List.mem_map.mp hname
    have hi' := List.mem_range.mp hi
    exact (QMap.contains_iff m _).mp (hall (i + 1) (by omega) (by omega))
  have hlen := (List.subperm_of_subset hnodup hsub).length_le
  simp at hlen

/-- The loop of `stampAdded` stops at the first free name, given fuel to
reach it. -/
theorem TileStampManager.pickName_first_free (contains : String → Bool) (fuel : Nat) :
    ∀ (index N : Nat), index < N → N ≤ index + fuel →
      contains (TileStampManager.stampNameTemplate N) = false →
      (∀ M, index < M → M < N → contains (TileStampManager.stampNameTemplate M) = true) →
      TileStampManager.pickName contains fuel index
        = some (TileStampManager.stampNameTemplate N) := by
  induction fuel with
  | zero => intro index N h1 h2; omega
  | succ fuel ih =>
    intro index N h1 h2 hfree hused
    by_cases hN : N = index + 1
    · subst hN
      simp [TileStampManager.pickName, hfree]
    · have hu := hused (index + 1) (by omega) (by omega)
      simp only [TileStampManager.pickName, hu, if_true]
      exact ih (index + 1) N (by omega) (by omega) hfree
        (fun M hM1 hM2 => hused M (by omega) hM2)

/-- With more fuel than the index has entries, the loop of `stampAdded`
returns "Stamp N" for the smallest positive N whose name is free. -/
theorem TileStampManager.pickName_spec {T : Type} (m : QMap T) (fuel : Nat)
    (hfuel : m.length < fuel) :
    ∃ N, 0 < N ∧ N ≤ m.length + 1 ∧
      TileStampManager.pickName (QMap.contains m) fuel 0
        = some (TileStampManager.stampNameTemplate N) ∧
      QMap.contains m (TileStampManager.stampNameTemplate N) = false ∧
      ∀ M, 0 < M → M < N → QMap.contains m (TileStampManager.stampNameTemplate M) = true := by
  classical
  have hex := TileStampManager.exists_free_name m
  have hspec := Nat.find_spec hex
  have hmin : ∀ M, 0 < M → M < Nat.find hex →
      QMap.contains m (TileStampManager.stampNameTemplate M) = true := by
    intro M hM1 hM2
    have hnot := Nat.find_min hex hM2
    by_contra hc
    exact hnot ⟨hM1, by omega, by simpa using hc⟩
  refine ⟨Nat.find hex, hspec.1, hspec.2.1, ?_, hspec.2.2, hmin⟩
  exact TileStampManager.pickName_first_free _ fuel 0 _ hspec.1 (by omega) hspec.2.2 hmin

theorem QMap.lookup_insert_self {T : Type} (m : QMap T) (key : String) (value : T) :
    QMap.lookup (QMap.insert m key value) key = some value := by
  induction m with
  | nil => simp [QMap.insert, QMap.lookup]
  | cons kv rest ih =>
    obtain ⟨k, v⟩ := kv
    unfold QMap.insert
    by_cases h1 : key = k
    · simp [h1, QMap.lookup]
    · rw [if_neg h1]
      by_cases h2 : key.toList < k.toList
      · rw [if_pos h2]
        simp [QMap.lookup]
      · rw [if_neg h2]
        have hb : (k == key) = false := by simpa using Ne.symm h1
        unfold QMap.lookup at ih ⊢
        rw [List.find?_cons, hb]
        exact ih

theorem QMap.lookup_insert_other {T : Type} (m : QMap T) (key other : String) (value : T)
    (h : other ≠ key) :
    QMap.lookup (QMap.insert m key value) other = QMap.lookup m other := by
  have hb : (key == other) = false := by simpa using Ne.symm h
  induction m with
  | nil => simp [QMap.insert, QMap.lookup, hb]
  | cons kv rest ih =>
    obtain ⟨k, v⟩ := kv
    unfold QMap.insert
    by_cases h1 : key = k
    · subst h1
      simp [QMap.lookup, List.find?_cons, hb]
    · rw [if_neg h1]
      by_cases h2 : key.toList < k.toList
      · rw [if_pos h2]
        simp [QMap.lookup, List.find?_cons, hb]
      · rw [if_neg h2]
        unfold QMap.lookup at ih ⊢
        rw [List.find?_cons, List.find?_cons]
        cases hk : (k == other) with
        | true => rfl
        | false => exact ih

theorem QMap.contains_eq_lookup {T : Type} (m : QMap T) (key : String) :
    QMap.contains m key = (QMap.lookup m key).isSome := by
  induction m with
  | nil => rfl
  | cons kv rest ih =>
    unfold QMap.contains QMap.lookup at ih ⊢
    rw [List.any_cons, List.find?_cons]
    by_cases h : kv.1 = key
    · simp [h]
    · have hb : (kv.1 == key) = false := by simpa using h
      rw [hb, Bool.false_or, ih]

theorem QMap.length_insert_le {T : Type} (m : QMap T) (key : String) (value : T) :
    (QMap.insert m key value).length ≤ m.length + 1 := by
  induction m with
  | nil => simp [QMap.insert]
  | cons kv rest ih =>
    obtain ⟨k, v⟩ := kv
    unfold QMap.insert
    split
    · simp
    · split
      · simp
      · simpa using ih

/-! ## The add callback -/

theorem World.mapsKept_setStamp (w : World) (s : StampPtr) (d : TileStampData) :
    World.mapsKept w (w.setStamp s d) := fun _ _ h => h

theorem TileStamp.name_of_content {w : World} {s : StampPtr} {v : TileStamp.Content}
    (h : TileStamp.content w s = some v) : TileStamp.name w s = some v.name := by
  simp only [TileStamp.content, Option.bind_eq_bind, Option.bind_eq_some, Option.pure_def,
    Option.some.injEq] at h
  obtain ⟨d, hd, l, _, hv⟩ := h
  subst hv
  simp [TileStamp.name, hd]

theorem TileStamp.lt_of_content {w : World} {s : StampPtr} {v : TileStamp.Content}
    (h : TileStamp.content w s = some v) : s < w.stamps.length := by
  simp only [TileStamp.content, Option.bind_eq_bind, Option.bind_eq_some] at h
  obtain ⟨d, hd, _⟩ := h
  exact World.stampAt_lt hd

/-- The call `setName` on a live stamp: the handle ends on a live stamp with the new
name and the same variations; every other live stamp is untouched, and so are
the variations of the stamp the handle pointed to. -/
theorem TileStamp.setName_spec (detaches : Bool) (w : World) (stamp : StampPtr) (name : String)
    (v : TileStamp.Content) (h : TileStamp.content w stamp = some v) :
    ∃ w' s' q, TileStamp.setName detaches w stamp name = some (w', s') ∧
      TileStamp.content w' s'
        = some { name := name, quickStampIndex := q, variations := v.variations } ∧
      (∀ t u, t ≠ stamp → TileStamp.content w t = some u →
        TileStamp.content w' t = some u ∧ t ≠ s') ∧
      (∃ u, TileStamp.content w' stamp = some u ∧ u.variations = v.variations) ∧
      (detaches = false → s' = stamp) := by
  have hS := h
  simp only [TileStamp.content, Option.bind_eq_bind, Option.bind_eq_some, Option.pure_def,
    Option.some.injEq] at h
  obtain ⟨d, hd, l, hl, hv⟩ := h
  subst hv
  cases detaches with
  | false =>
    have hlt := World.stampAt_lt hd
    have hself := World.stampAt_setStamp_self w stamp { d with name := name } hlt
    have hcont : TileStamp.content (w.setStamp stamp { d with name := name }) stamp
        = some { name := name, quickStampIndex := d.quickStampIndex, variations := l } := by
      have hl' : TileStamp.variationContents (w.setStamp stamp { d with name := name })
          d.variations = some l :=
        TileStamp.variationContents_kept (World.mapsKept_setStamp w _ _) _ _ hl
      simp [TileStamp.content, hself, hl']
    refine ⟨w.setStamp stamp { d with name := name }, stamp, d.quickStampIndex, ?_, hcont, ?_,
      ⟨_, hcont, rfl⟩, fun _ => rfl⟩
    · simp [TileStamp.setName, TileStamp.writable, hd]
    · intro t u ht hu
      refine ⟨?_, ht⟩
      simp only [TileStamp.content, Option.bind_eq_bind, Option.bind_eq_some, Option.pure_def,
        Option.some.injEq] at hu ⊢
      obtain ⟨dt, hdt, lt, hlt', hu⟩ := hu
      refine ⟨dt, ?_, lt,
        TileStamp.variationContents_kept (World.mapsKept_setStamp w _ _) _ _ hlt', hu⟩
      rw [World.stampAt_setStamp_other _ _ _ _ ht]
      exact hdt
  | true =>
    have hcd := TileStamp.copyData_spec w stamp _ hS
    have hset : (World.setStamp
        ⟨w.maps ++ TileStamp.cellsOf l,
          w.stamps ++ [some (TileStampData.mk d.name (TileStamp.variationsAt w.maps.length l) (-1))],
          fun t => w.tilesetRefs t + TileStamp.usesIn l t⟩ w.stamps.length
        (TileStampData.mk name (TileStamp.variationsAt w.maps.length l) (-1))).stamps
        = w.stamps ++ [some (TileStampData.mk name (TileStamp.variationsAt w.maps.length l) (-1))] := by
      simp only [World.setStamp]
      rw [List.set_append_right _ _ (Nat.le_refl _)]
      simp
    refine ⟨World.setStamp
        ⟨w.maps ++ TileStamp.cellsOf l,
          w.stamps ++ [some (TileStampData.mk d.name (TileStamp.variationsAt w.maps.length l) (-1))],
          fun t => w.tilesetRefs t + TileStamp.usesIn l t⟩ w.stamps.length
        (TileStampData.mk name (TileStamp.variationsAt w.maps.length l) (-1)),
      w.stamps.length, -1, ?_, ?_, ?_, ?_, fun hf => absurd hf (by simp)⟩
    · simp only [TileStamp.setName, TileStamp.writable, if_true, hcd, Option.bind_eq_bind,
        Option.some_bind, World.stampAt_mk_append, Option.pure_def]
    · have hst : World.stampAt (World.setStamp
          ⟨w.maps ++ TileStamp.cellsOf l,
            w.stamps ++ [some (TileStampData.mk d.name (TileStamp.variationsAt w.maps.length l) (-1))],
            fun t => w.tilesetRefs t + TileStamp.usesIn l t⟩ w.stamps.length
          (TileStampData.mk name (TileStamp.variationsAt w.maps.length l) (-1))) w.stamps.length
          = some (TileStampData.mk name (TileStamp.variationsAt w.maps.length l) (-1)) := by
        unfold World.stampAt
        rw [hset]
        simp
      have hvc := TileStamp.variationContents_variationsAt w.maps l [] (World.setStamp
          ⟨w.maps ++ TileStamp.cellsOf l,
            w.stamps ++ [some (TileStampData.mk d.name (TileStamp.variationsAt w.maps.length l) (-1))],
            fun t => w.tilesetRefs t + TileStamp.usesIn l t⟩ w.stamps.length
          (TileStampData.mk name (TileStamp.variationsAt w.maps.length l) (-1)))
        (by simp [World.setStamp])
      simp [TileStamp.content, hst, hvc]
    · intro t u ht hu
      exact ⟨TileStamp.content_of_append w _ t u hu _ _ rfl hset,
        Nat.ne_of_lt (TileStamp.lt_of_content hu)⟩
    · exact ⟨_, TileStamp.content_of_append w _ stamp _ hS _ _ rfl hset, rfl⟩

/-- Saving a live stamp always completes and touches the disk only. -/
theorem TileStampManager.saveStamp_spec {QVariant : Type} (env : Env QVariant)
    (st : TileStampManager) (stamp : StampPtr) (v : TileStamp.Content)
    (h : TileStamp.content st.world stamp = some v) :
    ∃ disk, TileStampManager.saveStamp env st stamp = some { st with disk := disk } := by
  unfold TileStampManager.saveStamp
  split
  · exact ⟨st.disk, rfl⟩
  · rw [TileStamp.name_of_content h, TileStamp.toJson_spec env.codec st.world stamp _ v h]
    simp only [Option.bind_eq_bind, Option.some_bind, Option.pure_def]
    split
    · exact ⟨_, rfl⟩
    · exact ⟨_, rfl⟩

theorem TileStampManager.stampAdded_tail {QVariant : Type} (env : Env QVariant)
    (st1 : TileStampManager) (stamp1 : StampPtr) (c : TileStamp.Content)
    (h : TileStamp.content st1.world stamp1 = some c) :
    ∃ disk,
      (do
        let name ← TileStamp.name st1.world stamp1
        let st2 := { st1 with mStampsByName := QMap.insert st1.mStampsByName name stamp1 }
        if !st2.mLoadingStamps then do
          let st3 ← TileStampManager.saveStamp env st2 stamp1
          pure (st3, stamp1)
        else
          pure (st2, stamp1))
      = some ({ st1 with
          mStampsByName := QMap.insert st1.mStampsByName c.name stamp1, disk := disk },
        stamp1) := by
  rw [TileStamp.name_of_content h]
  simp only [Option.bind_eq_bind, Option.some_bind]
  cases hload : st1.mLoadingStamps with
  | true => exact ⟨st1.disk, by simp [hload]⟩
  | false =>
    obtain ⟨disk, hsave⟩ := TileStampManager.saveStamp_spec env
      { st1 with mStampsByName := QMap.insert st1.mStampsByName c.name stamp1 } stamp1 c h
    refine ⟨disk, ?_⟩
    simp only [hload, Bool.not_false, if_true] at hsave ⊢
    rw [hsave]
    rfl

/-- What the add callback does with a live stamp, given more fuel than the
index has entries. -/
theorem TileStampManager.stampAdded_spec {QVariant : Type} (env : Env QVariant) (fuel : Nat)
    (detaches : Bool) (st : TileStampManager) (stamp : StampPtr) (v : TileStamp.Content)
    (hlive : TileStamp.content st.world stamp = some v)
    (hfuel : st.mStampsByName.length < fuel) :
    ∃ st' stamp' finalName q,
      TileStampManager.stampAdded env fuel detaches st stamp = some (st', stamp') ∧
      TileStamp.content st'.world stamp'
        = some { name := finalName, quickStampIndex := q, variations := v.variations } ∧
      ((v.name = "" ∨ QMap.contains st.mStampsByName v.name = true) →
        ∃ N, 0 < N ∧ N ≤ st.mStampsByName.length + 1 ∧
          finalName = TileStampManager.stampNameTemplate N ∧
          QMap.contains st.mStampsByName (TileStampManager.stampNameTemplate N) = false ∧
          ∀ M, 0 < M → M < N →
            QMap.contains st.mStampsByName (TileStampManager.stampNameTemplate M) = true) ∧
      ((v.name ≠ "" ∧ QMap.contains st.mStampsByName v.name = false) →
        finalName = v.name ∧ stamp' = stamp ∧ q = v.quickStampIndex) ∧
      st'.mStampsByName = QMap.insert st.mStampsByName finalName stamp' ∧
      st'.mQuickStamps = st.mQuickStamps ∧ st'.mTileStampModel = st.mTileStampModel ∧
      st'.mLoadingStamps = st.mLoadingStamps ∧
      (∀ t u, t ≠ stamp → TileStamp.content st.world t = some u →
        TileStamp.content st'.world t = some u ∧ t ≠ stamp') ∧
      (∃ u, TileStamp.content st'.world stamp = some u ∧ u.variations = v.variations) := by
  by_cases hcond : (v.name.isEmpty || QMap.contains st.mStampsByName v.name) = true
  · obtain ⟨N, hN1, hN2, hpick, hfree, hmin⟩ :=
      TileStampManager.pickName_spec st.mStampsByName fuel hfuel
    obtain ⟨w', s', q, hset, hcont, hframe, horig, _⟩ := TileStamp.setName_spec detaches st.world
      stamp (TileStampManager.stampNameTemplate N) v hlive
    obtain ⟨disk, htail⟩ := TileStampManager.stampAdded_tail env { st with world := w' } s' _ hcont
    refine ⟨{ st with
        world := w'
        mStampsByName := QMap.insert st.mStampsByName (TileStampManager.stampNameTemplate N) s'
        disk := disk }, s', TileStampManager.stampNameTemplate N, q, ?_, hcont,
      fun _ => ⟨N, hN1, hN2, rfl, hfree, hmin⟩, ?_, rfl, rfl, rfl, rfl, hframe, horig⟩
    · unfold TileStampManager.stampAdded
      rw [TileStamp.name_of_content hlive]
      simp only [Option.bind_eq_bind, Option.some_bind, hcond, if_true, hpick, hset,
        Option.pure_def]
      exact htail
    · rintro ⟨hne, hnc⟩
      rw [Bool.or_eq_true, String.isEmpty_iff] at hcond
      rcases hcond with he | hc
      · exact absurd he hne
      · rw [hnc] at hc
        exact absurd hc (by simp)
  · obtain ⟨disk, htail⟩ := TileStampManager.stampAdded_tail env st stamp v hlive
    refine ⟨{ st with mStampsByName := QMap.insert st.mStampsByName v.name stamp, disk := disk },
      stamp, v.name, v.quickStampIndex, ?_, hlive, ?_, fun _ => ⟨rfl, rfl, rfl⟩, rfl, rfl,
      rfl, rfl, fun t u ht hu => ⟨hu, ht⟩, ⟨v, hlive, rfl⟩⟩
    · unfold TileStampManager.stampAdded
      rw [TileStamp.name_of_content hlive]
      simp only [Option.bind_eq_bind, Option.some_bind, hcond, Bool.false_eq_true, if_false,
        Option.pure_def]
      exact htail
    · intro hor
      exfalso
      apply hcond
      rw [Bool.or_eq_true, String.isEmpty_iff]
      exact hor

/-- C7. For a live stamp and more fuel than the index has entries,
`stampAdded` returns. When the name of the stamp is empty or a key of the
index, the stamp is named "Stamp N" for the smallest positive N such that
"Stamp N" is not a key (N is at most the size of the index plus 1); when the
name is non-empty and not a key, it is left unchanged. In both cases the stamp
is then inserted in the index under its final name. -/
theorem TileStampManager.stampAdded_first_free_name {QVariant : Type} (env : Env QVariant)
    (fuel : Nat) (detaches : Bool) (st : TileStampManager) (stamp : StampPtr)
    (v : TileStamp.Content) (hlive : TileStamp.content st.world stamp = some v)
    (hfuel : st.mStampsByName.length < fuel) :
    ∃ st' stamp' finalName,
      TileStampManager.stampAdded env fuel detaches st stamp = some (st', stamp') ∧
      TileStamp.name st'.world stamp' = some finalName ∧
      ((v.name = "" ∨ QMap.contains st.mStampsByName v.name = true) →
        ∃ N, 0 < N ∧ N ≤ st.mStampsByName.length + 1 ∧
          finalName = TileStampManager.stampNameTemplate N ∧
          QMap.contains st.mStampsByName (TileStampManager.stampNameTemplate N) = false ∧
          ∀ M, 0 < M → M < N →
            QMap.contains st.mStampsByName (TileStampManager.stampNameTemplate M) = true) ∧
      ((v.name ≠ "" ∧ QMap.contains st.mStampsByName v.name = false) → finalName = v.name) ∧
      st'.mStampsByName = QMap.insert st.mStampsByName finalName stamp' ∧
      QMap.lookup st'.mStampsByName finalName = some stamp' := by
  obtain ⟨st', stamp', finalName, q, h1, h2, h3, h4, h5, _⟩ :=
    TileStampManager.stampAdded_spec env fuel detaches st stamp v hlive hfuel
  refine ⟨st', stamp', finalName, h1, TileStamp.name_of_content h2, h3,
    fun h => (h4 h).1, h5, ?_⟩
  rw [h5]
  exact QMap.lookup_insert_self _ _ _

/-- C7 at the sample manager: the first stamp has no name and "Stamp 1" is
taken. -/
theorem TileStampManager.stampAdded_first_free_name_witness :
    ∃ st' stamp' finalName,
      TileStampManager.stampAdded Sample.env 2 false Sample.manager 0 = some (st', stamp') ∧
      TileStamp.name st'.world stamp' = some finalName ∧
      (("" = "" ∨ QMap.contains Sample.manager.mStampsByName "" = true) →
        ∃ N, 0 < N ∧ N ≤ Sample.manager.mStampsByName.length + 1 ∧
          finalName = TileStampManager.stampNameTemplate N ∧
          QMap.contains Sample.manager.mStampsByName (TileStampManager.stampNameTemplate N)
            = false ∧
          ∀ M, 0 < M → M < N →
            QMap.contains Sample.manager.mStampsByName (TileStampManager.stampNameTemplate M)
              = true) ∧
      (("" ≠ "" ∧ QMap.contains Sample.manager.mStampsByName "" = false) → finalName = "") ∧
      st'.mStampsByName = QMap.insert Sample.manager.mStampsByName finalName stamp' ∧
      QMap.lookup st'.mStampsByName finalName = some stamp' :=
  TileStampManager.stampAdded_first_free_name Sample.env 2 false Sample.manager 0
    { name := "", quickStampIndex := -1, variations := [(1, Sample.grass)] } rfl (by decide)

theorem QMap.contains_insert_of_contains {T : Type} (m : QMap T) (key other : String) (value : T)
    (h : QMap.contains m other = true) : QMap.contains (QMap.insert m key value) other = true := by
  rw [QMap.contains_eq_lookup] at h ⊢
  by_cases he : other = key
  · subst he
    rw [QMap.lookup_insert_self]
    rfl
  · rw [QMap.lookup_insert_other _ _ _ _ he]
    exact h

/-- C6. Two distinct live stamps that are both named "", or both named the
same key of the index, go through `stampAdded` one after the other (with fuel
above the size of the index plus 1): the calls return, and the two stamps end
with two different, non-empty names "Stamp N1" and "Stamp N2" with N1 and N2
positive, both keys of the index bound to their stamp, while every key the
index had before is still bound to the same stamp. -/
theorem TileStampManager.stampAdded_twice_distinct_names {QVariant : Type} (env : Env QVariant)
    (fuel : Nat) (detaches1 detaches2 : Bool) (st : TileStampManager) (s1 s2 : StampPtr)
    (v1 v2 : TileStamp.Content)
    (h1 : TileStamp.content st.world s1 = some v1)
    (h2 : TileStamp.content st.world s2 = some v2)
    (hne : s1 ≠ s2) (hsame : v1.name = v2.name)
    (htaken : v1.name = "" ∨ QMap.contains st.mStampsByName v1.name = true)
    (hfuel : st.mStampsByName.length + 1 < fuel) :
    ∃ st1 s1' st2 s2' n1 n2,
      TileStampManager.stampAdded env fuel detaches1 st s1 = some (st1, s1') ∧
      TileStampManager.stampAdded env fuel detaches2 st1 s2 = some (st2, s2') ∧
      TileStamp.name st2.world s1' = some n1 ∧ TileStamp.name st2.world s2' = some n2 ∧
      n1 ≠ n2 ∧ n1 ≠ "" ∧ n2 ≠ "" ∧
      (∃ N1, 0 < N1 ∧ n1 = TileStampManager.stampNameTemplate N1) ∧
      (∃ N2, 0 < N2 ∧ n2 = TileStampManager.stampNameTemplate N2) ∧
      QMap.lookup st2.mStampsByName n1 = some s1' ∧
      QMap.lookup st2.mStampsByName n2 = some s2' ∧
      ∀ key, QMap.contains st.mStampsByName key = true →
        QMap.lookup st2.mStampsByName key = QMap.lookup st.mStampsByName key := by
  obtain ⟨st1, s1', n1, q1, ha1, ha2, ha3, _, ha5, _, _, _, ha9, _⟩ :=
    TileStampManager.stampAdded_spec env fuel detaches1 st s1 v1 h1 (by omega)
  obtain ⟨N1, hN1, _, hn1, hfree1, _⟩ := ha3 htaken
  obtain ⟨h2', hs2⟩ := ha9 s2 v2 (Ne.symm hne) h2
  have hlen : st1.mStampsByName.length ≤ st.mStampsByName.length + 1 := by
    rw [ha5]
    exact QMap.length_insert_le _ _ _
  obtain ⟨st2, s2', n2, q2, hb1, hb2, hb3, _, hb5, _, _, _, hb9, _⟩ :=
    TileStampManager.stampAdded_spec env fuel detaches2 st1 s2 v2 h2' (by omega)
  have htaken2 : v2.name = "" ∨ QMap.contains st1.mStampsByName v2.name = true := by
    rcases htaken with he | hc
    · exact Or.inl (hsame ▸ he)
    · right
      rw [ha5, ← hsame]
      exact QMap.contains_insert_of_contains _ _ _ _ hc
  obtain ⟨N2, hN2, _, hn2, hfree2, _⟩ := hb3 htaken2
  have hin1 : QMap.contains st1.mStampsByName n1 = true := by
    rw [QMap.contains_eq_lookup, ha5, QMap.lookup_insert_self]
    rfl
  have hne12 : n1 ≠ n2 := by
    intro he
    rw [hn2] at he
    rw [he, hfree2] at hin1
    exact absurd hin1 (by simp)
  obtain ⟨hc1, _⟩ := hb9 s1' _ (Ne.symm hs2) ha2
  refine ⟨st1, s1', st2, s2', n1, n2, ha1, hb1, TileStamp.name_of_content hc1,
    TileStamp.name_of_content hb2, hne12, ?_, ?_, ⟨N1, hN1, hn1⟩, ⟨N2, hN2, hn2⟩, ?_, ?_, ?_⟩
  · rw [hn1]
    exact TileStampManager.stampNameTemplate_ne_empty N1
  · rw [hn2]
    exact TileStampManager.stampNameTemplate_ne_empty N2
  · rw [hb5, QMap.lookup_insert_other _ _ _ _ hne12, ha5]
    exact QMap.lookup_insert_self _ _ _
  · rw [hb5]
    exact QMap.lookup_insert_self _ _ _
  · intro key hkey
    have hk1 : key ≠ n1 := by
      intro he
      rw [he, hn1, hfree1] at hkey
      exact absurd hkey (by simp)
    have hk2 : key ≠ n2 := by
      intro he
      have hin := QMap.contains_insert_of_contains st.mStampsByName n1 key s1' hkey
      rw [← ha5, he, hn2, hfree2] at hin
      exact absurd hin (by simp)
    rw [hb5, QMap.lookup_insert_other _ _ _ _ hk2, ha5, QMap.lookup_insert_other _ _ _ _ hk1]

/-- C6 at the sample manager: its two stamps have no name. -/
theorem TileStampManager.stampAdded_twice_distinct_names_witness :
    ∃ st1 s1' st2 s2' n1 n2,
      TileStampManager.stampAdded Sample.env 3 false Sample.manager 0 = some (st1, s1') ∧
      TileStampManager.stampAdded Sample.env 3 true st1 1 = some (st2, s2') ∧
      TileStamp.name st2.world s1' = some n1 ∧ TileStamp.name st2.world s2' = some n2 ∧
      n1 ≠ n2 ∧ n1 ≠ "" ∧ n2 ≠ "" ∧
      (∃ N1, 0 < N1 ∧ n1 = TileStampManager.stampNameTemplate N1) ∧
      (∃ N2, 0 < N2 ∧ n2 = TileStampManager.stampNameTemplate N2) ∧
      QMap.lookup st2.mStampsByName n1 = some s1' ∧
      QMap.lookup st2.mStampsByName n2 = some s2' ∧
      ∀ key, QMap.contains Sample.manager.mStampsByName key = true →
        QMap.lookup st2.mStampsByName key = QMap.lookup Sample.manager.mStampsByName key :=
  TileStampManager.stampAdded_twice_distinct_names Sample.env 3 false true Sample.manager 0 1
    { name := "", quickStampIndex := -1, variations := [(1, Sample.grass)] }
    { name := "", quickStampIndex := -1, variations := [(1, Sample.doubled)] }
    rfl rfl (by decide) rfl (Or.inl rfl) (by decide)

/-! ## Quick stamps -/

theorem TileStamp.isEmpty_live {w : World} {s : StampPtr} {b : Bool}
    (h : TileStamp.isEmpty w s = some b) : ∃ d, w.stampAt s = some d := by
  cases hd : w.stampAt s with
  | none => simp [TileStamp.isEmpty, hd] at h
  | some d => exact ⟨d, rfl⟩

/-- After slot `i` got a stamp that is not `s`, the slots still hold `s` just
when another slot did. -/
theorem TileStampManager.contains_after_set (slots : List StampPtr) (i : Nat)
    (fresh s : StampPtr) (hfresh : fresh ≠ s) :
    (slots.set i fresh).contains s = true ↔ ∃ j, j ≠ i ∧ slots[j]? = some s := by
  rw [List.contains_iff_exists_mem_beq]
  constructor
  · rintro ⟨x, hx, hbeq⟩
    have hxs : x = s := by simpa using Eq.symm (beq_iff_eq.mp hbeq)
    subst hxs
    obtain ⟨j, hj⟩ := List.mem_iff_getElem?.mp hx
    rw [List.getElem?_set] at hj
    by_cases hij : i = j
    · rw [if_pos hij] at hj
      split at hj
      · exact absurd (Option.some.inj hj) hfresh
      · exact absurd hj (by simp)
    · rw [if_neg hij] at hj
      exact ⟨j, Ne.symm hij, hj⟩
  · rintro ⟨j, hji, hj⟩
    refine ⟨s, List.mem_iff_getElem?.mpr ⟨j, ?_⟩, by simp⟩
    rw [List.getElem?_set, if_neg (Ne.symm hji)]
    exact hj

/-- What `eraseQuickStamp` does on a slot that holds a non-empty stamp. -/
theorem TileStampManager.eraseQuickStamp_nonempty (st : TileStampManager) (i : Nat)
    (s : StampPtr) (hslot : st.mQuickStamps[i]? = some s)
    (hne : TileStamp.isEmpty st.world s = some false) :
    ∃ st', TileStampManager.eraseQuickStamp st i = some st' ∧
      st'.world = (TileStamp.create st.world).1 ∧
      st'.mQuickStamps = st.mQuickStamps.set i st.world.stamps.length ∧
      TileStamp.isEmpty st'.world st.world.stamps.length = some true ∧
      ((∃ j, j ≠ i ∧ st.mQuickStamps[j]? = some s) →
        st'.mTileStampModel = st.mTileStampModel) ∧
      ((¬ ∃ j, j ≠ i ∧ st.mQuickStamps[j]? = some s) →
        st'.mTileStampModel = st.mTileStampModel.filter (fun t => !(t == s))) := by
  obtain ⟨d, hd⟩ := TileStamp.isEmpty_live hne
  have hlt := World.stampAt_lt hd
  have hfresh : st.world.stamps.length ≠ s := Ne.symm (Nat.ne_of_lt hlt)
  have hcontains := TileStampManager.contains_after_set st.mQuickStamps i
    st.world.stamps.length s hfresh
  have hd' : (TileStamp.create st.world).1.stampAt s = some d := by
    rw [TileStamp.create, World.stampAt_newStampData_old _ _ _ hlt]
    exact hd
  have hempty : TileStamp.isEmpty (TileStamp.create st.world).1 st.world.stamps.length
      = some true := by
    have := World.stampAt_newStampData_new st.world
      { name := "", variations := [], quickStampIndex := -1 }
    simp only [World.newStampData] at this
    simp [TileStamp.isEmpty, TileStamp.create, World.newStampData, this]
  by_cases hother : ∃ j, j ≠ i ∧ st.mQuickStamps[j]? = some s
  · have hc : (st.mQuickStamps.set i (TileStamp.create st.world).2).contains s = true :=
      hcontains.mpr hother
    refine ⟨{ st with world := (TileStamp.create st.world).1,
                      mQuickStamps := st.mQuickStamps.set i st.world.stamps.length },
      ?_, rfl, rfl, hempty, fun _ => rfl, fun h => absurd hother h⟩
    unfold TileStampManager.eraseQuickStamp
    rw [hslot]
    simp only [Option.bind_eq_bind, Option.some_bind, hne, Bool.not_false, if_true, hc,
      Bool.not_true, Bool.false_eq_true, if_false, Option.pure_def]
    rfl
  · have hc : (st.mQuickStamps.set i (TileStamp.create st.world).2).contains s = false := by
      cases hb : (st.mQuickStamps.set i (TileStamp.create st.world).2).contains s with
      | false => rfl
      | true => exact absurd (hcontains.mp hb) hother
    have hname : TileStamp.name (TileStamp.create st.world).1 s = some d.name := by
      simp [TileStamp.name, hd']
    refine ⟨{ st with
        world := (TileStamp.create st.world).1
        mQuickStamps := st.mQuickStamps.set i st.world.stamps.length
        mTileStampModel := st.mTileStampModel.filter (fun t => !(t == s))
        mStampsByName := QMap.remove st.mStampsByName d.name
        disk := TileStampManager.removeFile st.disk (TileStampManager.stampFilePath d.name) },
      ?_, rfl, rfl, hempty, fun h => absurd h hother, fun _ => rfl⟩
    unfold TileStampManager.eraseQuickStamp
    rw [hslot]
    simp only [Option.bind_eq_bind, Option.some_bind, hne, Bool.not_false, if_true, hc,
      TileStampManager.removeStamp, TileStampManager.deleteStamp, hname, Option.pure_def]
    rfl

/-- C8. Let slot `i` hold the stamp `s`. When `s` is not empty,
`eraseQuickStamp(i)` puts a new empty stamp in slot `i`, leaves the other
slots as they are, and removes `s` from the observed collection exactly when
no other slot holds `s`; so a stamp held by the slots `i` and `j` only is
still in the collection after `eraseQuickStamp(i)` and leaves it with the
later `eraseQuickStamp(j)`. When `s` is empty the call changes nothing. -/
theorem TileStampManager.eraseQuickStamp_slot (st : TileStampManager) (i : Nat) (s : StampPtr)
    (hslot : st.mQuickStamps[i]? = some s) :
    (TileStamp.isEmpty st.world s = some false →
      ∃ st' fresh, TileStampManager.eraseQuickStamp st i = some st' ∧
        st'.mQuickStamps = st.mQuickStamps.set i fresh ∧
        TileStamp.isEmpty st'.world fresh = some true ∧
        ((∃ j, j ≠ i ∧ st.mQuickStamps[j]? = some s) →
          st'.mTileStampModel = st.mTileStampModel) ∧
        ((¬ ∃ j, j ≠ i ∧ st.mQuickStamps[j]? = some s) →
          s ∉ st'.mTileStampModel ∧
          st'.mTileStampModel = st.mTileStampModel.filter (fun t => !(t == s)))) ∧
    (∀ j, TileStamp.isEmpty st.world s = some false → j ≠ i →
      st.mQuickStamps[j]? = some s →
      (∀ k, k ≠ i → k ≠ j → st.mQuickStamps[k]? ≠ some s) →
      ∃ st1 st2, TileStampManager.eraseQuickStamp st i = some st1 ∧
        st1.mTileStampModel = st.mTileStampModel ∧
        TileStampManager.eraseQuickStamp st1 j = some st2 ∧
        s ∉ st2.mTileStampModel) ∧
    (TileStamp.isEmpty st.world s = some true →
      TileStampManager.eraseQuickStamp st i = some st) := by
  refine ⟨fun hne => ?_, fun j hne hji hj hothers => ?_, fun hempty => ?_⟩
  · obtain ⟨st', h1, _, h3, h4, h5, h6⟩ :=
      TileStampManager.eraseQuickStamp_nonempty st i s hslot hne
    refine ⟨st', st.world.stamps.length, h1, h3, h4, h5, fun hno => ⟨?_, h6 hno⟩⟩
    rw [h6 hno]
    simp
  · obtain ⟨st1, h1, hw1, hq1, _, h5, _⟩ :=
      TileStampManager.eraseQuickStamp_nonempty st i s hslot hne
    obtain ⟨d, hd⟩ := TileStamp.isEmpty_live hne
    have hlt := World.stampAt_lt hd
    have hslot1 : st1.mQuickStamps[j]? = some s := by
      rw [hq1, List.getElem?_set, if_neg (Ne.symm hji)]
      exact hj
    have hne1 : TileStamp.isEmpty st1.world s = some false := by
      have hd1 : st1.world.stampAt s = st.world.stampAt s := by
        rw [hw1, TileStamp.create, World.stampAt_newStampData_old _ _ _ hlt]
      simpa [TileStamp.isEmpty, hd1] using hne
    have hno : ¬ ∃ k, k ≠ j ∧ st1.mQuickStamps[k]? = some s := by
      rintro ⟨k, hkj, hk⟩
      rw [hq1, List.getElem?_set] at hk
      by_cases hik : i = k
      · rw [if_pos hik] at hk
        split at hk
        · exact absurd (Option.some.inj hk) (Ne.symm (Nat.ne_of_lt hlt))
        · exact absurd hk (by simp)
      · rw [if_neg hik] at hk
        exact hothers k (Ne.symm hik) hkj hk
    obtain ⟨st2, h2, _, _, _, _, h6⟩ :=
      TileStampManager.eraseQuickStamp_nonempty st1 j s hslot1 hne1
    refine ⟨st1, st2, h1, h5 ⟨j, hji, hj⟩, h2, ?_⟩
    rw [h6 hno]
    simp
  · unfold TileStampManager.eraseQuickStamp
    rw [hslot]
    simp [hempty]

/-- C8 at the sample manager: slots 2 and 5 hold the second stamp. -/
theorem TileStampManager.eraseQuickStamp_slot_witness :
    (TileStamp.isEmpty Sample.manager.world 1 = some false →
      ∃ st' fresh, TileStampManager.eraseQuickStamp Sample.manager 2 = some st' ∧
        st'.mQuickStamps = Sample.manager.mQuickStamps.set 2 fresh ∧
        TileStamp.isEmpty st'.world fresh = some true ∧
        ((∃ j, j ≠ 2 ∧ Sample.manager.mQuickStamps[j]? = some 1) →
          st'.mTileStampModel = Sample.manager.mTileStampModel) ∧
        ((¬ ∃ j, j ≠ 2 ∧ Sample.manager.mQuickStamps[j]? = some 1) →
          1 ∉ st'.mTileStampModel ∧
          st'.mTileStampModel
            = Sample.manager.mTileStampModel.filter (fun t => !(t == 1)))) ∧
    (∀ j, TileStamp.isEmpty Sample.manager.world 1 = some false → j ≠ 2 →
      Sample.manager.mQuickStamps[j]? = some 1 →
      (∀ k, k ≠ 2 → k ≠ j → Sample.manager.mQuickStamps[k]? ≠ some 1) →
      ∃ st1 st2, TileStampManager.eraseQuickStamp Sample.manager 2 = some st1 ∧
        st1.mTileStampModel = Sample.manager.mTileStampModel ∧
        TileStampManager.eraseQuickStamp st1 j = some st2 ∧
        1 ∉ st2.mTileStampModel) ∧
    (TileStamp.isEmpty Sample.manager.world 1 = some true →
      TileStampManager.eraseQuickStamp Sample.manager 2 = some Sample.manager) :=
  TileStampManager.eraseQuickStamp_slot Sample.manager 2 1 rfl

/-! ## Loading the stamps directory -/

/-- C10 as stated fails: `fromJson` on an object whose "quickStampIndex" is 42
returns a stamp with quick stamp index 42, outside [-1, 8]. -/
theorem TileStamp.fromJson_index_out_of_range :
    ∃ w' stamp,
      TileStamp.fromJson Sample.codec World.empty [("quickStampIndex", .double 42)] "stamps"
        = some (w', stamp) ∧
      TileStamp.quickStampIndex w' stamp = some 42 ∧ ¬ ((42 : Int) ≤ 8) := by
  obtain ⟨w', vs, h1, h2, _⟩ := TileStamp.fromJson_spec Sample.codec World.empty
    [("quickStampIndex", .double 42)] "stamps"
  refine ⟨w', _, h1, ?_, by decide⟩
  have hidx : (QJsonObject.value [("quickStampIndex", QJsonValue.double 42)]
      "quickStampIndex").toInt (-1) = 42 := by
    have h := QJsonValue.toInt_intCast 42 (by decide) (-1)
    simpa [QJsonObject.value] using h
  simp [TileStamp.quickStampIndex, h2, hidx]

theorem TileStamp.setQuickStampIndex_index (detaches : Bool) (w w1 : World) (stamp s1 : StampPtr)
    (index : Int)
    (h : TileStamp.setQuickStampIndex detaches w stamp index = some (w1, s1)) :
    TileStamp.quickStampIndex w1 s1 = some index := by
  simp only [TileStamp.setQuickStampIndex, Option.bind_eq_bind, Option.bind_eq_some,
    Option.pure_def, Option.some.injEq, Prod.mk.injEq] at h
  obtain ⟨r, _, d, hd, hw, hs⟩ := h
  subst hw hs
  simp [TileStamp.quickStampIndex, World.stampAt_setStamp_self _ _ _ (World.stampAt_lt hd)]

theorem TileStamp.quickStampIndex_copy_then_alter (body : Map → Map) (w : World) (S : StampPtr)
    (v : TileStamp.Content) (hS : TileStamp.content w S = some v) :
    ∃ w' s,
      (do
        let (w1, copy) ← TileStamp.copyData w S
        let d ← w1.stampAt copy
        let w2 ← TileStamp.alterMaps body w1 d.variations
        pure (w2, copy)) = some (w', s) ∧
      TileStamp.quickStampIndex w' s = some (-1) := by
  refine ⟨_, _, TileStamp.copy_then_alter body w S v hS, ?_⟩
  simp [TileStamp.quickStampIndex, World.stampAt_mk_append]

/-- C10, amended. A stamp made by default construction, by the deep copy of a
live stamp, by `flipped` or by `rotated` has quick stamp index -1.
`setQuickStampIndex` as `setQuickStamp` calls it, on a manager with 9 quick
slots, gives the stamp the slot index, which is at most 8. `fromJson` gives
the stamp the integer value of the "quickStampIndex" field as it is (-1 when
the field is missing or is not an `int`): any `int`, inside [-1, 8] or not. -/
theorem TileStampManager.quickStampIndex_produced {QVariant : Type} (env : Env QVariant)
    (ops : LayerOps) (fuel : Nat) (w : World) (S : StampPtr) (v : TileStamp.Content)
    (json : QJsonObject) (mapDir : Dir) (st st' : TileStampManager) (index : Nat)
    (stamp : StampPtr)
    (hS : TileStamp.content w S = some v)
    (hslots : st.mQuickStamps.length = 9)
    (hset : TileStampManager.setQuickStamp env fuel st index stamp = some st') :
    TileStamp.quickStampIndex (TileStamp.create w).1 (TileStamp.create w).2 = some (-1) ∧
    (∃ w' s, TileStamp.copyData w S = some (w', s) ∧
      TileStamp.quickStampIndex w' s = some (-1)) ∧
    (∀ direction, ∃ w' s, TileStamp.flipped ops w S direction = some (w', s) ∧
      TileStamp.quickStampIndex w' s = some (-1)) ∧
    (∀ direction, ∃ w' s, TileStamp.rotated ops w S direction = some (w', s) ∧
      TileStamp.quickStampIndex w' s = some (-1)) ∧
    (∃ w1 s1, TileStamp.setQuickStampIndex env.implicitSharing st.world stamp index
        = some (w1, s1) ∧
      TileStamp.quickStampIndex w1 s1 = some (index : Int) ∧ index ≤ 8) ∧
    (∃ w' s, TileStamp.fromJson env.codec w json mapDir = some (w', s) ∧
      TileStamp.quickStampIndex w' s
        = some ((QJsonObject.value json "quickStampIndex").toInt (-1)) ∧
      ∀ i : Int, INT_MIN ≤ i → i ≤ INT_MAX →
        QJsonObject.value json "quickStampIndex" = .double i →
        TileStamp.quickStampIndex w' s = some i) := by
  refine ⟨?_, ?_, ?_, ?_, ?_, ?_⟩
  · have := World.stampAt_newStampData_new w { name := "", variations := [], quickStampIndex := -1 }
    simp [TileStamp.quickStampIndex, TileStamp.create, this]
  · refine ⟨_, _, TileStamp.copyData_spec w S v hS, ?_⟩
    simp [TileStamp.quickStampIndex, World.stampAt_mk_append]
  · intro direction
    exact TileStamp.quickStampIndex_copy_then_alter (TileStamp.flipMap ops direction) w S v hS
  · intro direction
    exact TileStamp.quickStampIndex_copy_then_alter (TileStamp.rotateMap ops direction) w S v hS
  · simp only [TileStampManager.setQuickStamp, Option.bind_eq_bind, Option.bind_eq_some] at hset
    obtain ⟨r, hr, st1, herase, _⟩ := hset
    obtain ⟨w1, s1⟩ := r
    refine ⟨w1, s1, hr, TileStamp.setQuickStampIndex_index _ _ _ _ _ _ hr, ?_⟩
    cases hslot : st.mQuickStamps[index]? with
    | none =>
      simp [TileStampManager.eraseQuickStamp, hslot] at herase
    | some s =>
      have hlt : index < st.mQuickStamps.length := by
        by_contra hn
        rw [List.getElem?_eq_none (Nat.le_of_not_lt hn)] at hslot
        simp at hslot
      omega
  · obtain ⟨w', vs, h1, h2, _⟩ := TileStamp.fromJson_spec env.codec w json mapDir
    have hq : TileStamp.quickStampIndex w' w.stamps.length
        = some ((QJsonObject.value json "quickStampIndex").toInt (-1)) := by
      simp [TileStamp.quickStampIndex, h2]
    refine ⟨w', _, h1, hq, fun i hi1 hi2 hv => ?_⟩
    rw [hq, hv, QJsonValue.toInt_intCast i ⟨hi1, hi2⟩]

/-- C10, amended, at the sample values: stamp 1 of the sample manager is put
in quick slot 4. -/
theorem TileStampManager.quickStampIndex_produced_witness :
    TileStamp.quickStampIndex (TileStamp.create Sample.world).1 (TileStamp.create Sample.world).2
      = some (-1) ∧
    (∃ w' s, TileStamp.copyData Sample.world 0 = some (w', s) ∧
      TileStamp.quickStampIndex w' s = some (-1)) ∧
    (∀ direction, ∃ w' s,
      TileStamp.flipped Sample.layerOps Sample.world 0 direction = some (w', s) ∧
      TileStamp.quickStampIndex w' s = some (-1)) ∧
    (∀ direction, ∃ w' s,
      TileStamp.rotated Sample.layerOps Sample.world 0 direction = some (w', s) ∧
      TileStamp.quickStampIndex w' s = some (-1)) ∧
    (∃ w1 s1, TileStamp.setQuickStampIndex Sample.env.implicitSharing Sample.manager.world 1
        ((4 : Nat) : Int) = some (w1, s1) ∧
      TileStamp.quickStampIndex w1 s1 = some ((4 : Nat) : Int) ∧ 4 ≤ 8) ∧
    (∃ w' s, TileStamp.fromJson Sample.env.codec Sample.world
        [("quickStampIndex", .double 42)] "stamps" = some (w', s) ∧
      TileStamp.quickStampIndex w' s
        = some ((QJsonObject.value [("quickStampIndex", .double 42)]
            "quickStampIndex").toInt (-1)) ∧
      ∀ i : Int, INT_MIN ≤ i → i ≤ INT_MAX →
        QJsonObject.value [("quickStampIndex", .double 42)] "quickStampIndex" = .double i →
        TileStamp.quickStampIndex w' s = some i) :=
  TileStampManager.quickStampIndex_produced Sample.env Sample.layerOps 3 Sample.world 0
    { name := "Grass", quickStampIndex := 3, variations := [(2, Sample.grass)] }
    [("quickStampIndex", .double 42)] "stamps" Sample.manager _ 4 1 rfl rfl rfl

/-! ## The change callback -/

theorem QMap.key_of_bound {T : Type} [DecidableEq T] (m : QMap T) (k : String) (value : T)
    (hk : QMap.lookup m k = some value) (honly : ∀ kv ∈ m, kv.2 = value → kv.1 = k) :
    QMap.key m value = k := by
  unfold QMap.lookup at hk
  obtain ⟨kv, hfind, hval⟩ := Option.map_eq_some'.mp hk
  have hmem : kv ∈ m := List.mem_of_find?_eq_some hfind
  unfold QMap.key
  cases hf : m.find? (fun e => e.2 == value) with
  | none =>
    have hno := List.find?_eq_none.mp hf kv hmem
    simp [hval] at hno
  | some e =>
    have he : e.2 = value := by simpa using List.find?_some hf
    exact honly e (List.mem_of_find?_eq_some hf) he

theorem QMap.mem_insert {T : Type} (m : QMap T) (key : String) (value : T) (kv : String × T)
    (h : kv ∈ QMap.insert m key value) : kv = (key, value) ∨ kv ∈ m := by
  induction m with
  | nil => simpa [QMap.insert] using h
  | cons e rest ih =>
    obtain ⟨k, v⟩ := e
    unfold QMap.insert at h
    split at h
    · rcases List.mem_cons.mp h with h | h
      · exact Or.inl h
      · exact Or.inr (List.mem_cons_of_mem _ h)
    · split at h
      · rcases List.mem_cons.mp h with h | h
        · exact Or.inl h
        · exact Or.inr h
      · rcases List.mem_cons.mp h with h | h
        · exact Or.inr (h ▸ List.mem_cons_self _ _)
        · rcases ih h with h | h
          · exact Or.inl h
          · exact Or.inr (List.mem_cons_of_mem _ h)

theorem QMap.mem_remove {T : Type} (m : QMap T) (key : String) (kv : String × T)
    (h : kv ∈ QMap.remove m key) : kv ∈ m ∧ kv.1 ≠ key := by
  unfold QMap.remove at h
  obtain ⟨hmem, hne⟩ := List.mem_filter.mp h
  exact ⟨hmem, by simpa using hne⟩

theorem QMap.contains_remove_self {T : Type} (m : QMap T) (key : String) :
    QMap.contains (QMap.remove m key) key = false := by
  rw [Bool.eq_false_iff]
  intro hc
  obtain ⟨kv, hmem, hkey⟩ := List.any_eq_true.mp hc
  exact (QMap.mem_remove m key kv hmem).2 (by simpa using hkey)

theorem QMap.contains_insert_other {T : Type} (m : QMap T) (key other : String) (value : T)
    (h : other ≠ key) :
    QMap.contains (QMap.insert m key value) other = QMap.contains m other := by
  rw [QMap.contains_eq_lookup, QMap.contains_eq_lookup, QMap.lookup_insert_other m key other value h]

theorem TileStampManager.renameFile_dirExists (disk : Disk) (oldName newName : String) :
    (TileStampManager.renameFile disk oldName newName).dirExists = disk.dirExists := by
  unfold TileStampManager.renameFile
  split <;> rfl

/-- The function `saveStamp` on a live stamp: nothing happens when the stamps directory
is missing and cannot be made; otherwise the directory exists afterwards and,
when the commit succeeds, it has the file of the stamp with its JSON. -/
theorem TileStampManager.saveStamp_eq {QVariant : Type} (env : Env QVariant)
    (st : TileStampManager) (stamp : StampPtr) (v : TileStamp.Content)
    (h : TileStamp.content st.world stamp = some v) :
    TileStampManager.saveStamp env st stamp
      = some (if !st.disk.dirExists && !env.mkpath then st
          else if env.commit then
            { st with
              disk := TileStampManager.writeFile { st.disk with dirExists := true }
                (TileStampManager.stampFilePath v.name)
                (env.toJson (TileStamp.contentJson env.codec env.stampsDirectory v)) }
          else { st with disk := { st.disk with dirExists := true } }) := by
  unfold TileStampManager.saveStamp
  split
  · rfl
  · rw [TileStamp.name_of_content h, TileStamp.toJson_spec env.codec st.world stamp _ v h]
    simp only [Option.bind_eq_bind, Option.some_bind, Option.pure_def]
    split <;> rfl

/-- The change callback on a live stamp whose index key is `k`: the state
that is saved. -/
theorem TileStampManager.stampChanged_eq {QVariant : Type} (env : Env QVariant)
    (st : TileStampManager) (stamp : StampPtr) (k : String) (c : TileStamp.Content)
    (hlive : TileStamp.content st.world stamp = some c)
    (hkey : QMap.key st.mStampsByName stamp = k) :
    TileStampManager.stampChanged env st stamp
      = TileStampManager.saveStamp env
          (if k = c.name then st
           else { st with
             mStampsByName := QMap.insert (QMap.remove st.mStampsByName k) c.name stamp
             disk := TileStampManager.renameFile st.disk (TileStampManager.stampFilePath k)
               (TileStampManager.stampFilePath c.name) }) stamp := by
  unfold TileStampManager.stampChanged
  rw [TileStamp.name_of_content hlive, hkey]
  simp only [Option.bind_eq_bind, Option.some_bind]
  by_cases h : k = c.name
  · simp [h]
  · simp [h]

/-- What `saveStamp` leaves as it is: the index and the heap. -/
theorem TileStampManager.saveStamp_keeps {QVariant : Type} (env : Env QVariant)
    (st st' : TileStampManager) (stamp : StampPtr)
    (h : TileStampManager.saveStamp env st stamp = some st') :
    st'.mStampsByName = st.mStampsByName ∧ st'.world = st.world := by
  unfold TileStampManager.saveStamp at h
  split at h
  · simp only [Option.some.injEq] at h
    subst h
    exact ⟨rfl, rfl⟩
  · simp only [Option.bind_eq_bind, Option.bind_eq_some] at h
    obtain ⟨_, _, _, _, h⟩ := h
    split at h <;>
    · simp only [Option.pure_def, Option.some.injEq] at h
      subst h
      exact ⟨rfl, rfl⟩

/-- C11. Let a live stamp be bound in the by-name index under the key `k` and
under no other key. Then `stampChanged(stamp)` returns, and afterwards the
index maps the current name of the stamp to the stamp and binds the stamp
under no other key; when `k` differs from the current name the key `k` is no
longer in the index, and when `k` is the current name the index is unchanged.
In both cases the stamp is saved: when the stamps directory exists or can be
made and the commit succeeds, the directory holds the file of the current name
with the JSON of the stamp. -/
theorem TileStampManager.stampChanged_rekeys {QVariant : Type} (env : Env QVariant)
    (st : TileStampManager) (stamp : StampPtr) (k : String) (c : TileStamp.Content)
    (hlive : TileStamp.content st.world stamp = some c)
    (hk : QMap.lookup st.mStampsByName k = some stamp)
    (honly : ∀ kv ∈ st.mStampsByName, kv.2 = stamp → kv.1 = k) :
    ∃ st', TileStampManager.stampChanged env st stamp = some st' ∧
      QMap.lookup st'.mStampsByName c.name = some stamp ∧
      (∀ kv ∈ st'.mStampsByName, kv.2 = stamp → kv.1 = c.name) ∧
      (k ≠ c.name → QMap.contains st'.mStampsByName k = false) ∧
      (k = c.name → st'.mStampsByName = st.mStampsByName) ∧
      ((st.disk.dirExists = true ∨ env.mkpath = true) → env.commit = true →
        { fileName := TileStampManager.stampFilePath c.name,
          data := some (env.toJson (TileStamp.contentJson env.codec env.stampsDirectory c)) }
          ∈ st'.disk.files) := by
  have hkey := QMap.key_of_bound st.mStampsByName k stamp hk honly
  have heq := TileStampManager.stampChanged_eq env st stamp k c hlive hkey
  by_cases hkc : k = c.name
  · rw [if_pos hkc] at heq
    have hsave := TileStampManager.saveStamp_eq env st stamp c hlive
    rw [← heq] at hsave
    refine ⟨_, hsave, ?_, ?_, ?_, ?_, ?_⟩
    · have hidx := (TileStampManager.saveStamp_keeps env st _ stamp (heq ▸ hsave)).1
      rw [hidx, ← hkc]
      exact hk
    · have hidx := (TileStampManager.saveStamp_keeps env st _ stamp (heq ▸ hsave)).1
      rw [hidx, ← hkc]
      exact honly
    · exact fun hne => absurd hkc hne
    · exact fun _ => (TileStampManager.saveStamp_keeps env st _ stamp (heq ▸ hsave)).1
    · intro hdir hcommit
      have hcond : (!st.disk.dirExists && !env.mkpath) = false := by
        rcases hdir with hdir | hdir <;> simp [hdir]
      simp [hcond, hcommit, TileStampManager.writeFile]
  · rw [if_neg hkc] at heq
    have hsave := TileStampManager.saveStamp_eq env
      { st with
        mStampsByName := QMap.insert (QMap.remove st.mStampsByName k) c.name stamp
        disk := TileStampManager.renameFile st.disk (TileStampManager.stampFilePath k)
          (TileStampManager.stampFilePath c.name) } stamp c hlive
    have hidx := (TileStampManager.saveStamp_keeps env _ _ stamp hsave).1
    rw [← heq] at hsave
    refine ⟨_, hsave, ?_, ?_, ?_, ?_, ?_⟩
    · rw [hidx]
      exact QMap.lookup_insert_self _ _ _
    · rw [hidx]
      intro kv hkv hval
      rcases QMap.mem_insert _ _ _ kv hkv with h | h
      · rw [h]
      · obtain ⟨hmem, hne⟩ := QMap.mem_remove _ _ kv h
        exact absurd (honly kv hmem hval) hne
    · intro _
      rw [hidx, QMap.contains_insert_other _ _ _ _ hkc]
      exact QMap.contains_remove_self _ _
    · exact fun h => absurd h hkc
    · intro hdir hcommit
      have hcond : (!st.disk.dirExists && !env.mkpath) = false := by
        rcases hdir with hdir | hdir <;> simp [hdir]
      simp [TileStampManager.renameFile_dirExists, hcond, hcommit, TileStampManager.writeFile]

/-- C11 on the sample manager whose stamp "Grass" is still indexed as
"Meadow": the entry is re-keyed and the file "Grass.stamp" is written. -/
theorem TileStampManager.stampChanged_rekeys_witness :
    ∃ st', TileStampManager.stampChanged Sample.env Sample.edited 0 = some st' ∧
      QMap.lookup st'.mStampsByName "Grass" = some 0 ∧
      (∀ kv ∈ st'.mStampsByName, kv.2 = 0 → kv.1 = "Grass") ∧
      ("Meadow" ≠ "Grass" → QMap.contains st'.mStampsByName "Meadow" = false) ∧
      ("Meadow" = "Grass" → st'.mStampsByName = Sample.edited.mStampsByName) ∧
      ((Sample.edited.disk.dirExists = true ∨ Sample.env.mkpath = true) →
        Sample.env.commit = true →
        { fileName := TileStampManager.stampFilePath "Grass",
          data := some (Sample.env.toJson (TileStamp.contentJson Sample.env.codec
            Sample.env.stampsDirectory
            { name := "Grass", quickStampIndex := -1, variations := [(2, Sample.grass)] })) }
          ∈ st'.disk.files) :=
  TileStampManager.stampChanged_rekeys Sample.env Sample.edited 0 "Meadow"
    { name := "Grass", quickStampIndex := -1, variations := [(2, Sample.grass)] } rfl rfl
    (by
      intro kv hkv _
      simp only [Sample.edited, List.mem_singleton] at hkv
      rw [hkv])

/-! ## The draw of a random variation -/

/-- The sum `randomVariation` ends its first loop with: the sum it started
from plus all probabilities. -/
theorem TileStamp.probabilityThresholds_sum (variations : List TileStampVariation) :
    ∀ (index : Nat) (sum : ℚ) (m : List (ℚ × Nat)),
      (TileStamp.probabilityThresholds variations index sum m).2
        = sum + (variations.map (fun v => v.probability)).sum := by
  induction variations with
  | nil => intro index sum m; simp [TileStamp.probabilityThresholds]
  | cons v rest ih =>
    intro index sum m
    simp only [TileStamp.probabilityThresholds, ih, List.map_cons, List.sum_cons]
    ring

/-- The function `randomVariation` looks up the draw `randomDraw`. -/
theorem TileStamp.randomVariation_eq (variations : List TileStampVariation)
    (rand RAND_MAX : Nat) :
    TileStamp.randomVariation variations rand RAND_MAX
      = TileStamp.randomVariationAt variations
          (TileStamp.randomDraw variations rand RAND_MAX) := rfl

/-- C12 as stated fails: the probabilities 1, 1, 2 have the positive total 4,
and the draw for `rand() = RAND_MAX = 32767` is 4, which is not strictly less
than the total. -/
theorem TileStamp.randomDraw_reaches_total :
    Sample.weighted ≠ [] ∧
    0 < (Sample.weighted.map (fun v => v.probability)).sum ∧
    (32767 : Nat) ≤ 32767 ∧
    ¬ (TileStamp.randomDraw Sample.weighted 32767 32767
        < (Sample.weighted.map (fun v => v.probability)).sum) := by
  refine ⟨by decide, by norm_num [Sample.weighted], le_refl _, ?_⟩
  rw [TileStamp.randomDraw, TileStamp.probabilityThresholds_sum]
  norm_num [Sample.weighted]

/-- C12, amended. For a stamp with a positive total probability (so it is not
empty), a positive `RAND_MAX` and every value `rand` from 0 to `RAND_MAX`,
the draw `(rand / RAND_MAX) * total` of `randomVariation`, in exact
arithmetic, lies in the closed interval from 0 to the total; it is strictly
less than the total exactly when `rand < RAND_MAX`, and equals the total at
`rand = RAND_MAX`. -/
theorem TileStamp.randomDraw_range (variations : List TileStampVariation) (rand RAND_MAX : Nat)
    (htotal : 0 < (variations.map (fun v => v.probability)).sum) (hmax : 0 < RAND_MAX)
    (hrand : rand ≤ RAND_MAX) :
    0 ≤ TileStamp.randomDraw variations rand RAND_MAX ∧
    TileStamp.randomDraw variations rand RAND_MAX
      ≤ (variations.map (fun v => v.probability)).sum ∧
    (TileStamp.randomDraw variations rand RAND_MAX
      < (variations.map (fun v => v.probability)).sum ↔ rand < RAND_MAX) ∧
    (rand = RAND_MAX → TileStamp.randomDraw variations rand RAND_MAX
      = (variations.map (fun v => v.probability)).sum) := by
  have hR : (0 : ℚ) < (RAND_MAX : ℚ) := by exact_mod_cast hmax
  have hr : (rand : ℚ) ≤ (RAND_MAX : ℚ) := by exact_mod_cast hrand
  have h0 : (0 : ℚ) ≤ (rand : ℚ) / (RAND_MAX : ℚ) := div_nonneg (Nat.cast_nonneg _) (le_of_lt hR)
  have h1 : (rand : ℚ) / (RAND_MAX : ℚ) ≤ 1 := (div_le_one hR).mpr hr
  rw [TileStamp.randomDraw, TileStamp.probabilityThresholds_sum, zero_add]
  refine ⟨mul_nonneg h0 (le_of_lt htotal), mul_le_of_le_one_left (le_of_lt htotal) h1, ?_, ?_⟩
  · rw [mul_lt_iff_lt_one_left htotal, div_lt_one hR]
    exact_mod_cast Iff.rfl
  · intro h
    rw [h, div_self (ne_of_gt hR), one_mul]

/-- C12 on the probabilities 1, 1, 2 with `rand() = 100` and
`RAND_MAX = 32767`. -/
theorem TileStamp.randomDraw_range_witness :
    0 ≤ TileStamp.randomDraw Sample.weighted 100 32767 ∧
    TileStamp.randomDraw Sample.weighted 100 32767
      ≤ (Sample.weighted.map (fun v => v.probability)).sum ∧
    (TileStamp.randomDraw Sample.weighted 100 32767
      < (Sample.weighted.map (fun v => v.probability)).sum ↔ 100 < 32767) ∧
    (100 = 32767 → TileStamp.randomDraw Sample.weighted 100 32767
      = (Sample.weighted.map (fun v => v.probability)).sum) :=
  TileStamp.randomDraw_range Sample.weighted 100 32767 (by norm_num [Sample.weighted])
    (by decide) (by decide)

/-! ## What a flipped or rotated stamp keeps -/

theorem TileStamp.variationsAt_map (body : Map → Map) (l : List (ℚ × Map)) :
    ∀ base, TileStamp.variationsAt base (l.map (fun pm => (pm.1, body pm.2)))
      = TileStamp.variationsAt base l := by
  induction l with
  | nil => intro base; rfl
  | cons pm rest ih =>
    intro base
    simp only [List.map_cons, TileStamp.variationsAt, ih]

/-- The content of the stamp `flipped` and `rotated` return, for any loop
body: the name and the probabilities of the original, the altered maps, and
the quick stamp index -1. -/
theorem TileStamp.content_copy_then_alter (body : Map → Map) (w : World) (S : StampPtr)
    (v : TileStamp.Content) (hS : TileStamp.content w S = some v) :
    ∃ w' S',
      (do
        let (w1, copy) ← TileStamp.copyData w S
        let d ← w1.stampAt copy
        let w2 ← TileStamp.alterMaps body w1 d.variations
        pure (w2, copy)) = some (w', S') ∧
      TileStamp.content w' S'
        = some { name := v.name, quickStampIndex := -1,
                 variations := v.variations.map (fun pm => (pm.1, body pm.2)) } := by
  refine ⟨_, _, TileStamp.copy_then_alter body w S v hS, ?_⟩
  have hvars := TileStamp.variationContents_variationsAt w.maps
    (v.variations.map (fun pm => (pm.1, body pm.2))) []
    { maps := w.maps ++ TileStamp.cellsOf (v.variations.map (fun pm => (pm.1, body pm.2))),
      stamps := w.stamps ++ [some
        { name := v.name,
          variations := TileStamp.variationsAt w.maps.length v.variations,
          quickStampIndex := -1 }],
      tilesetRefs := fun t => w.tilesetRefs t + TileStamp.usesIn v.variations t }
    (by simp)
  rw [TileStamp.variationsAt_map] at hvars
  simp only [TileStamp.content, World.stampAt, List.getElem?_concat_length, Option.join, id,
    Option.bind_eq_bind, Option.some_bind, hvars, Option.pure_def]

/-- C13. For a live stamp S, whatever its quick stamp index is, and every
direction, `S.flipped(direction)` and `S.rotated(direction)` return a stamp
whose quick stamp index is -1 and whose name, number of variations and
probabilities, variation by variation, are those of S. -/
theorem TileStamp.flipped_rotated_reset_index (ops : LayerOps) (w : World) (S : StampPtr)
    (v : TileStamp.Content) (hS : TileStamp.content w S = some v) :
    (∀ direction, ∃ w' S' v',
        TileStamp.flipped ops w S direction = some (w', S') ∧
        TileStamp.content w' S' = some v' ∧
        v'.quickStampIndex = -1 ∧ v'.name = v.name ∧
        v'.variations.length = v.variations.length ∧
        v'.variations.map (fun pm => pm.1) = v.variations.map (fun pm => pm.1)) ∧
    (∀ direction, ∃ w' S' v',
        TileStamp.rotated ops w S direction = some (w', S') ∧
        TileStamp.content w' S' = some v' ∧
        v'.quickStampIndex = -1 ∧ v'.name = v.name ∧
        v'.variations.length = v.variations.length ∧
        v'.variations.map (fun pm => pm.1) = v.variations.map (fun pm => pm.1)) := by
  constructor
  · intro direction
    obtain ⟨w', S', hrun, hcontent⟩ :=
      TileStamp.content_copy_then_alter (TileStamp.flipMap ops direction) w S v hS
    exact ⟨w', S', _, hrun, hcontent, rfl, rfl, by simp, by simp [Function.comp_def]⟩
  · intro direction
    obtain ⟨w', S', hrun, hcontent⟩ :=
      TileStamp.content_copy_then_alter (TileStamp.rotateMap ops direction) w S v hS
    exact ⟨w', S', _, hrun, hcontent, rfl, rfl, by simp, by simp [Function.comp_def]⟩

/-- C13 at the sample world: "Grass" is bound to quick slot 3, and its
flipped and its rotated copies have the index -1, the name "Grass" and one
variation of probability 2. -/
theorem TileStamp.flipped_rotated_reset_index_witness :
    (∀ direction, ∃ w' S' v',
        TileStamp.flipped Sample.layerOps Sample.world 0 direction = some (w', S') ∧
        TileStamp.content w' S' = some v' ∧
        v'.quickStampIndex = -1 ∧ v'.name = "Grass" ∧
        v'.variations.length = 1 ∧
        v'.variations.map (fun pm => pm.1) = [2]) ∧
    (∀ direction, ∃ w' S' v',
        TileStamp.rotated Sample.layerOps Sample.world 0 direction = some (w', S') ∧
        TileStamp.content w' S' = some v' ∧
        v'.quickStampIndex = -1 ∧ v'.name = "Grass" ∧
        v'.variations.length = 1 ∧
        v'.variations.map (fun pm => pm.1) = [2]) :=
  TileStamp.flipped_rotated_reset_index Sample.layerOps Sample.world 0
    { name := "Grass", quickStampIndex := 3, variations := [(2, Sample.grass)] } rfl

/-! ## A rename onto a name in use -/

/-- C14. The sample index binds "A" to the first stamp and "B" to the second,
and the first stamp has been renamed to "B". After `stampChanged` on the first
stamp the index is the single entry "B" for the first stamp: the second stamp
is no longer a value of the index, which went from two entries to one. On
disk, "A.stamp" is still there (the rename finds "B.stamp" in its way) and
"B.stamp", the file of the second stamp, is overwritten with the first. -/
theorem TileStampManager.stampChanged_clash_drops_other :
    QMap.lookup Sample.renamed.mStampsByName "A" = some 0 ∧
    QMap.lookup Sample.renamed.mStampsByName "B" = some 1 ∧
    TileStamp.name Sample.renamed.world 0 = some "B" ∧
    Sample.renamed.mStampsByName.length = 2 ∧
    ∃ st', TileStampManager.stampChanged Sample.env Sample.renamed 0 = some st' ∧
      st'.mStampsByName = [("B", 0)] ∧
      (∀ key, QMap.lookup st'.mStampsByName key ≠ some 1) ∧
      st'.mStampsByName.length = 1 ∧
      st'.disk.files = [{ fileName := "A.stamp", data := some [1] },
                        { fileName := "B.stamp", data := some [0] }] := by
  refine ⟨rfl, rfl, rfl, rfl,
    { Sample.renamed with
      mStampsByName := [("B", 0)]
      disk := { dirExists := true
                files := [{ fileName := "A.stamp", data := some [1] },
                          { fileName := "B.stamp", data := some [0] }] } },
    rfl, rfl, ?_, rfl, rfl⟩
  intro key
  by_cases h : "B" = key
  · simp [QMap.lookup, h]
  · simp [QMap.lookup, h]

theorem QMap.lookup_remove_other {T : Type} (m : QMap T) (key other : String)
    (h : other ≠ key) : QMap.lookup (QMap.remove m key) other = QMap.lookup m other := by
  induction m with
  | nil => rfl
  | cons kv rest ih =>
    unfold QMap.lookup QMap.remove at ih ⊢
    by_cases hk : kv.1 = key
    · have hb : (kv.1 == other) = false := by
        rw [hk]
        simpa using Ne.symm h
      rw [List.filter_cons_of_neg (by simp [hk]), List.find?_cons, hb]
      exact ih
    · rw [List.filter_cons_of_pos (by simp [hk]), List.find?_cons, List.find?_cons]
      cases kv.1 == other with
      | true => rfl
      | false => exact ih

/-- Away from a clash of names the change callback keeps the other stamps:
when the stamp is bound under `k` only and its current name is `k` or is not a
key of the index, every key bound to another stamp is still bound to it
afterwards. -/
theorem TileStampManager.stampChanged_keeps_others {QVariant : Type} (env : Env QVariant)
    (st : TileStampManager) (stamp : StampPtr) (k : String) (c : TileStamp.Content)
    (hlive : TileStamp.content st.world stamp = some c)
    (hk : QMap.lookup st.mStampsByName k = some stamp)
    (honly : ∀ kv ∈ st.mStampsByName, kv.2 = stamp → kv.1 = k)
    (hfree : k = c.name ∨ QMap.contains st.mStampsByName c.name = false) :
    ∃ st', TileStampManager.stampChanged env st stamp = some st' ∧
      ∀ key other, other ≠ stamp → QMap.lookup st.mStampsByName key = some other →
        QMap.lookup st'.mStampsByName key = some other := by
  have hkey := QMap.key_of_bound st.mStampsByName k stamp hk honly
  have heq := TileStampManager.stampChanged_eq env st stamp k c hlive hkey
  by_cases hkc : k = c.name
  · rw [if_pos hkc] at heq
    have hsave := TileStampManager.saveStamp_eq env st stamp c hlive
    have hidx := (TileStampManager.saveStamp_keeps env st _ stamp hsave).1
    rw [← heq] at hsave
    refine ⟨_, hsave, ?_⟩
    intro key other _ hbound
    rw [hidx]
    exact hbound
  · rw [if_neg hkc] at heq
    have hfree : QMap.contains st.mStampsByName c.name = false := hfree.resolve_left hkc
    have hsave := TileStampManager.saveStamp_eq env
      { st with
        mStampsByName := QMap.insert (QMap.remove st.mStampsByName k) c.name stamp
        disk := TileStampManager.renameFile st.disk (TileStampManager.stampFilePath k)
          (TileStampManager.stampFilePath c.name) } stamp c hlive
    have hidx := (TileStampManager.saveStamp_keeps env _ _ stamp hsave).1
    rw [← heq] at hsave
    refine ⟨_, hsave, ?_⟩
    intro key other hne hbound
    have hkeyk : key ≠ k := by
      intro h
      rw [h, hk] at hbound
      exact hne (Option.some.inj hbound).symm
    have hkeyn : key ≠ c.name := by
      intro h
      rw [QMap.contains_eq_lookup, ← h, hbound] at hfree
      simp at hfree
    rw [hidx, QMap.lookup_insert_other _ _ _ _ hkeyn, QMap.lookup_remove_other _ _ _ hkeyk]
    exact hbound

/-! ## Equal thresholds -/

/-- C15. The sample stamp has the probabilities 1, 0 and 1, none negative and
2 in total, and its first variation has a positive probability. The threshold
table of `randomVariation` has two entries, 1 for the second variation and 2
for the third: the entry of the first variation is replaced when the second
reaches the same sum. So no draw returns the map of the first variation, and
the draws up to 1 return the map of the second, whose probability is 0. -/
theorem TileStamp.randomVariation_equal_thresholds :
    (∀ v ∈ Sample.zeroed, 0 ≤ v.probability) ∧
    (Sample.zeroed.map (fun v => v.probability)).sum = 2 ∧
    Sample.zeroed[0]? = some ⟨10, 1⟩ ∧
    (TileStamp.probabilityThresholds Sample.zeroed 0 0 []).1 = [(1, 1), (2, 2)] ∧
    (∀ random : ℚ, TileStamp.randomVariationAt Sample.zeroed random ≠ some 10) ∧
    (∀ random : ℚ, random ≤ 1 → TileStamp.randomVariationAt Sample.zeroed random = some 11) := by
  have htable : (TileStamp.probabilityThresholds Sample.zeroed 0 0 []).1 = [(1, 1), (2, 2)] := by
    norm_num [Sample.zeroed, TileStamp.probabilityThresholds, TileStamp.thresholdsInsert]
  have hat : ∀ random : ℚ, TileStamp.randomVariationAt Sample.zeroed random
      = if random ≤ 1 then some 11 else some 12 := by
    intro random
    unfold TileStamp.randomVariationAt
    rw [htable]
    by_cases h1 : random ≤ 1
    · simp [TileStamp.lowerBound, List.find?_cons, h1, Sample.zeroed]
      rfl
    · by_cases h2 : random ≤ 2
      · simp [TileStamp.lowerBound, List.find?_cons, h1, h2, Sample.zeroed]
      · simp [TileStamp.lowerBound, List.find?_cons, h1, h2, Sample.zeroed]
  refine ⟨?_, by norm_num [Sample.zeroed], rfl, htable, ?_, ?_⟩
  · intro v hv
    simp only [Sample.zeroed, List.mem_cons, List.mem_singleton, List.not_mem_nil, or_false] at hv
    rcases hv with rfl | rfl | rfl <;> norm_num
  · intro random
    rw [hat]
    split <;> simp
  · intro random h
    rw [hat, if_pos h]

theorem TileStamp.thresholdsInsert_mem_self (m : List (ℚ × Nat)) (key : ℚ) (value : Nat) :
    (key, value) ∈ TileStamp.thresholdsInsert m key value := by
  induction m with
  | nil => simp [TileStamp.thresholdsInsert]
  | cons e rest ih =>
    obtain ⟨k, v⟩ := e
    unfold TileStamp.thresholdsInsert
    split
    · exact List.mem_cons_self _ _
    · split
      · exact List.mem_cons_self _ _
      · exact List.mem_cons_of_mem _ ih

theorem TileStamp.thresholdsInsert_mem_of_lt (m : List (ℚ × Nat)) (key : ℚ) (value : Nat)
    (kv : ℚ × Nat) (hmem : kv ∈ m) (hlt : kv.1 < key) :
    kv ∈ TileStamp.thresholdsInsert m key value := by
  induction m with
  | nil => simp at hmem
  | cons e rest ih =>
    obtain ⟨k, v⟩ := e
    unfold TileStamp.thresholdsInsert
    split
    · rename_i heq
      rcases List.mem_cons.mp hmem with h | h
      · rw [h] at hlt
        exact absurd heq (ne_of_gt hlt)
      · exact List.mem_cons_of_mem _ h
    · split
      · exact List.mem_cons_of_mem _ hmem
      · rcases List.mem_cons.mp hmem with h | h
        · rw [h]
          exact List.mem_cons_self _ _
        · exact List.mem_cons_of_mem _ (ih h)

theorem TileStamp.thresholdsInsert_mem (m : List (ℚ × Nat)) (key : ℚ) (value : Nat)
    (kv : ℚ × Nat) (h : kv ∈ TileStamp.thresholdsInsert m key value) :
    kv = (key, value) ∨ kv ∈ m := by
  induction m with
  | nil => simpa [TileStamp.thresholdsInsert] using h
  | cons e rest ih =>
    obtain ⟨k, v⟩ := e
    unfold TileStamp.thresholdsInsert at h
    split at h
    · rcases List.mem_cons.mp h with h | h
      · exact Or.inl h
      · exact Or.inr (List.mem_cons_of_mem _ h)
    · split at h
      · rcases List.mem_cons.mp h with h | h
        · exact Or.inl h
        · exact Or.inr h
      · rcases List.mem_cons.mp h with h | h
        · exact Or.inr (h ▸ List.mem_cons_self _ _)
        · rcases ih h with h | h
          · exact Or.inl h
          · exact Or.inr (List.mem_cons_of_mem _ h)

/-- The threshold table stays in strictly ascending key order. -/
theorem TileStamp.thresholdsInsert_sorted (m : List (ℚ × Nat)) (key : ℚ) (value : Nat)
    (h : m.Pairwise (fun a b => a.1 < b.1)) :
    (TileStamp.thresholdsInsert m key value).Pairwise (fun a b => a.1 < b.1) := by
  induction m with
  | nil => simp [TileStamp.thresholdsInsert]
  | cons e rest ih =>
    obtain ⟨k, v⟩ := e
    obtain ⟨hhead, htail⟩ := List.pairwise_cons.mp h
    unfold TileStamp.thresholdsInsert
    split
    · rename_i heq
      exact List.pairwise_cons.mpr ⟨fun b hb => by rw [heq]; exact hhead b hb, htail⟩
    · split
      · rename_i hlt
        refine List.pairwise_cons.mpr ⟨?_, h⟩
        intro b hb
        rcases List.mem_cons.mp hb with hb | hb
        · rw [hb]
          exact hlt
        · exact lt_trans hlt (hhead b hb)
      · rename_i hne hnlt
        refine List.pairwise_cons.mpr ⟨?_, ih htail⟩
        intro b hb
        rcases TileStamp.thresholdsInsert_mem rest key value b hb with hb | hb
        · rw [hb]
          exact lt_of_le_of_ne (not_lt.mp hnlt) (Ne.symm hne)
        · exact hhead b hb

theorem TileStamp.probabilityThresholds_sorted (variations : List TileStampVariation) :
    ∀ (index : Nat) (sum : ℚ) (m : List (ℚ × Nat)), m.Pairwise (fun a b => a.1 < b.1) →
      (TileStamp.probabilityThresholds variations index sum m).1.Pairwise
        (fun a b => a.1 < b.1) := by
  induction variations with
  | nil => intro index sum m h; exact h
  | cons v rest ih =>
    intro index sum m h
    exact ih _ _ _ (TileStamp.thresholdsInsert_sorted m _ _ h)

/-- An entry of the table below the next threshold stays in the table to the
end of the loop, when no probability is negative. -/
theorem TileStamp.probabilityThresholds_mem_of_lt (variations : List TileStampVariation) :
    ∀ (index : Nat) (sum : ℚ) (m : List (ℚ × Nat)) (kv : ℚ × Nat),
      (∀ v ∈ variations, 0 ≤ v.probability) → kv ∈ m →
      (∀ v, variations.head? = some v → kv.1 < sum + v.probability) →
      kv ∈ (TileStamp.probabilityThresholds variations index sum m).1 := by
  induction variations with
  | nil => intro index sum m kv _ hmem _; exact hmem
  | cons v rest ih =>
    intro index sum m kv hnonneg hmem hnext
    have hlt : kv.1 < sum + v.probability := hnext v rfl
    refine ih _ _ _ kv (fun x hx => hnonneg x (List.mem_cons_of_mem _ hx))
      (TileStamp.thresholdsInsert_mem_of_lt m _ _ kv hmem hlt) ?_
    intro x hx
    have hxmem : x ∈ rest := List.mem_of_mem_head? hx
    have := hnonneg x (List.mem_cons_of_mem _ hxmem)
    linarith

/-- The threshold of a variation that is the last one, or is followed by a
variation of positive probability, is in the table with that variation. -/
theorem TileStamp.probabilityThresholds_mem (variations : List TileStampVariation) :
    ∀ (i index : Nat) (sum : ℚ) (m : List (ℚ × Nat)), i < variations.length →
      (∀ v ∈ variations, 0 ≤ v.probability) →
      (∀ v, variations[i + 1]? = some v → 0 < v.probability) →
      (sum + TileStamp.cumulative variations i, index + i)
        ∈ (TileStamp.probabilityThresholds variations index sum m).1 := by
  induction variations with
  | nil => intro i index sum m hi; simp at hi
  | cons x rest ih =>
    intro i index sum m hi hnonneg hnext
    have hrest : ∀ v ∈ rest, 0 ≤ v.probability :=
      fun v hv => hnonneg v (List.mem_cons_of_mem _ hv)
    cases i with
    | zero =>
      rw [TileStamp.cumulative_cons_zero, Nat.add_zero]
      refine TileStamp.probabilityThresholds_mem_of_lt rest _ _ _ _ hrest
        (TileStamp.thresholdsInsert_mem_self m _ _) ?_
      intro v hv
      have hpos : 0 < v.probability := hnext v (by
        rw [List.head?_eq_getElem?] at hv
        simpa using hv)
      simp only
      linarith
    | succ i =>
      have h := ih i (index + 1) (sum + x.probability)
        (TileStamp.thresholdsInsert m (sum + x.probability) index)
        (by simpa using hi) hrest
        (fun v hv => hnext v (by simpa using hv))
      rw [TileStamp.cumulative_cons_succ]
      have e1 : sum + (x.probability + TileStamp.cumulative rest i)
          = sum + x.probability + TileStamp.cumulative rest i := by ring
      have e2 : index + (i + 1) = index + 1 + i := by omega
      rw [e1, e2]
      exact h

/-- In a table in strictly ascending key order `lowerBound` of a key of the
table is the entry of that key. -/
theorem TileStamp.lowerBound_of_mem (m : List (ℚ × Nat)) (kv : ℚ × Nat)
    (hsorted : m.Pairwise (fun a b => a.1 < b.1)) (hmem : kv ∈ m) :
    TileStamp.lowerBound m kv.1 = some kv := by
  induction m with
  | nil => simp at hmem
  | cons e rest ih =>
    obtain ⟨hhead, htail⟩ := List.pairwise_cons.mp hsorted
    unfold TileStamp.lowerBound at ih ⊢
    rcases List.mem_cons.mp hmem with h | h
    · rw [h, List.find?_cons, decide_eq_true (le_refl _)]
    · rw [List.find?_cons, decide_eq_false (not_le.mpr (hhead kv h))]
      exact ih htail h

/-- With probabilities that are not negative, a variation that is the last
one, or is followed by a variation of positive probability, is returned for
the draw equal to its cumulative sum. -/
theorem TileStamp.randomVariationAt_cumulative (variations : List TileStampVariation) (i : Nat)
    (hi : i < variations.length) (hnonneg : ∀ v ∈ variations, 0 ≤ v.probability)
    (hnext : ∀ v, variations[i + 1]? = some v → 0 < v.probability) :
    TileStamp.randomVariationAt variations (TileStamp.cumulative variations i)
      = some (variations[i]).map := by
  have hne : variations.isEmpty = false := by
    cases variations with
    | nil => simp at hi
    | cons _ _ => rfl
  have hmem := TileStamp.probabilityThresholds_mem variations i 0 0 [] hi hnonneg hnext
  have hsorted := TileStamp.probabilityThresholds_sorted variations 0 0 [] List.Pairwise.nil
  have hlb := TileStamp.lowerBound_of_mem _ _ hsorted hmem
  simp only [zero_add] at hlb
  simp only [TileStamp.randomVariationAt, hne, hlb, Bool.false_eq_true, if_false,
    List.getElem?_eq_getElem hi, Option.map_some']

end Tiled
